import Mathlib

/-!
Verification of the file-manager subsystem of the `xero_reports_automation`
repository (`app/services/file_manager.py`), as a shallow embedding.

Strings are modelled as `List Char` (Python `str`), machine-level file
contents as `List Nat` (bytes).  Each Python function of the source is
translated into an executable Lean definition; the theorems at the end of the
file settle the frozen claims about the specification.
-/

namespace FileManager

/-- Python strings are modelled as lists of characters. -/
abbrev Str := List Char

/-! ### Decimal representation of natural numbers (Python `f"{counter}"`) -/

/-- Little-endian decimal digits of `n` (last digit first); mirrors the digit
sequence Python's `str(int)` is built from. -/
def toDigitsRev (n : Nat) : List Nat :=
  if n < 10 then [n] else n % 10 :: toDigitsRev (n / 10)
termination_by n
decreasing_by exact Nat.div_lt_self (by omega) (by omega)

/-- Evaluation of a little-endian digit list back to the number. -/
def fromDigitsRev : List Nat → Nat
  | [] => 0
  | d :: ds => d + 10 * fromDigitsRev ds

/-- The decimal string of `n`, as produced by Python's `f"{n}"` for a
non-negative integer. -/
def natRepr (n : Nat) : Str :=
  ((toDigitsRev n).map Nat.digitChar).reverse

theorem toDigitsRev_ne_nil (n : Nat) : toDigitsRev n ≠ [] := by
  rw [toDigitsRev]
  split <;> simp

theorem fromDigitsRev_toDigitsRev (n : Nat) : fromDigitsRev (toDigitsRev n) = n := by
  induction n using Nat.strong_induction_on with
  | _ n ih =>
    rw [toDigitsRev]
    split
    · simp [fromDigitsRev]
    · rw [fromDigitsRev, ih (n / 10) (Nat.div_lt_self (by omega) (by omega))]
      omega

theorem toDigitsRev_injective : Function.Injective toDigitsRev := by
  intro a b h
  have ha := fromDigitsRev_toDigitsRev a
  have hb := fromDigitsRev_toDigitsRev b
  rw [h] at ha
  omega

theorem toDigitsRev_lt_ten (n : Nat) : ∀ d ∈ toDigitsRev n, d < 10 := by
  induction n using Nat.strong_induction_on with
  | _ n ih =>
    rw [toDigitsRev]
    split
    · intro d hd
      simp at hd
      omega
    · intro d hd
      simp at hd
      rcases hd with hd | hd
      · omega
      · exact ih (n / 10) (Nat.div_lt_self (by omega) (by omega)) d hd

theorem digitChar_inj_lt : ∀ a < 10, ∀ b < 10, Nat.digitChar a = Nat.digitChar b → a = b := by
  decide

theorem digitChar_ne_underscore : ∀ d < 10, Nat.digitChar d ≠ '_' := by
  decide

/-- Digit lists below 10 map injectively to characters. -/
theorem map_digitChar_inj : ∀ (xs ys : List Nat), (∀ d ∈ xs, d < 10) → (∀ d ∈ ys, d < 10) →
    xs.map Nat.digitChar = ys.map Nat.digitChar → xs = ys
  | [], [], _, _, _ => rfl
  | [], _ :: _, _, _, h => by simp at h
  | _ :: _, [], _, _, h => by simp at h
  | x :: xs, y :: ys, hx, hy, h => by
    simp only [List.map_cons, List.cons.injEq] at h
    have hxy : x = y :=
      digitChar_inj_lt x (hx x (by simp)) y (hy y (by simp)) h.1
    have : xs = ys :=
      map_digitChar_inj xs ys (fun d hd => hx d (by simp [hd])) (fun d hd => hy d (by simp [hd])) h.2
    rw [hxy, this]

theorem natRepr_injective : Function.Injective natRepr := by
  intro a b h
  unfold natRepr at h
  have h2 := List.reverse_injective h
  exact toDigitsRev_injective
    (map_digitChar_inj _ _ (toDigitsRev_lt_ten a) (toDigitsRev_lt_ten b) h2)

theorem natRepr_no_underscore (n : Nat) : ∀ c ∈ natRepr n, c ≠ '_' := by
  intro c hc
  unfold natRepr at hc
  rw [List.mem_reverse] at hc
  rcases List.mem_map.mp hc with ⟨d, hd, hdc⟩
  have := digitChar_ne_underscore d (toDigitsRev_lt_ten n d hd)
  rw [← hdc]
  exact this

theorem natRepr_length_eq (n : Nat) : (natRepr n).length = (toDigitsRev n).length := by
  simp [natRepr]

/-- The digit count bounds the value from above. -/
theorem lt_pow_length_toDigitsRev (n : Nat) : n < 10 ^ (toDigitsRev n).length := by
  induction n using Nat.strong_induction_on with
  | _ n ih =>
    rw [toDigitsRev]
    split
    · simpa using by omega
    · simp only [List.length_cons]
      have h := ih (n / 10) (Nat.div_lt_self (by omega) (by omega))
      have : n < 10 * 10 ^ (toDigitsRev (n / 10)).length := by omega
      calc n < 10 * 10 ^ (toDigitsRev (n / 10)).length := this
        _ = 10 ^ ((toDigitsRev (n / 10)).length + 1) := by ring

/-- Values below `10 ^ k` have at most `k` digits (for `k ≥ 1`). -/
theorem length_toDigitsRev_le (n k : Nat) (hk : 1 ≤ k) (h : n < 10 ^ k) :
    (toDigitsRev n).length ≤ k := by
  induction n using Nat.strong_induction_on generalizing k with
  | _ n ih =>
    rw [toDigitsRev]
    split
    · simpa using hk
    · simp only [List.length_cons]
      have hk2 : 2 ≤ k := by
        by_contra hc
        have : k = 1 := by omega
        subst this
        simp at h
        omega
      have := ih (n / 10) (Nat.div_lt_self (by omega) (by omega)) (k - 1) (by omega)
        (by
          have : 10 ^ k = 10 * 10 ^ (k - 1) := by
            rw [← pow_succ']
            congr 1
            omega
          omega)
      omega

theorem length_toDigitsRev_ge (n k : Nat) (h : 10 ^ k ≤ n) :
    k + 1 ≤ (toDigitsRev n).length := by
  by_contra hc
  have hlen : (toDigitsRev n).length ≤ k := by omega
  have := lt_pow_length_toDigitsRev n
  have : n < 10 ^ k := lt_of_lt_of_le this (Nat.pow_le_pow_right (by omega) hlen)
  omega

/-! ### Python slicing and the collision-resolving sheet-name search
(`_make_unique_sheet_name`, file_manager.py lines 320-334) -/

/-- Python slice `l[:m]` for a possibly negative stop index `m`:
`l[:-k]` drops the last `k` elements. -/
def pyslice (m : Int) (l : Str) : Str :=
  if 0 ≤ m then l.take m.toNat else l.take ((l.length : Int) + m).toNat

/-- The candidate produced by one iteration of the collision loop:
`f"{name[:31 - len(suffix)]}{suffix}"` with `suffix = f"_{counter}"`. -/
def mkCand (name : Str) (counter : Nat) : Str :=
  let sfx := '_' :: natRepr counter
  pyslice (31 - (sfx.length : Int)) name ++ sfx

/-- The `while True` suffix search of `_make_unique_sheet_name`, indexed by
fuel; `none` models an execution that has not yet returned after `fuel`
iterations. -/
def uniqueLoop (existing : List Str) (name : Str) : Nat → Nat → Option Str
  | _, 0 => none
  | counter, fuel + 1 =>
    let newName := mkCand name counter
    if newName ∈ existing then uniqueLoop existing name (counter + 1) fuel
    else some newName

/-- `_make_unique_sheet_name` (file_manager.py lines 320-334).  The Python
loop is unbounded; `existing.length + 1` iterations always suffice
(`uniqueLoop_fuel_sufficient` below), so the `getD` fallback never fires. -/
def _make_unique_sheet_name (existing : List Str) (name : Str) : Str :=
  if name ∈ existing then (uniqueLoop existing name 1 (existing.length + 1)).getD name
  else name

/-- The longest suffix of a string containing no underscore (reading the
decimal counter back off a candidate). -/
def lastRun (l : Str) : Str :=
  (l.reverse.takeWhile (fun c => c ≠ '_')).reverse

theorem takeWhile_append_all (p : Char → Bool) (l1 l2 : Str) (h : ∀ c ∈ l1, p c = true) :
    (l1 ++ l2).takeWhile p = l1 ++ l2.takeWhile p := by
  induction l1 with
  | nil => simp
  | cons c cs ih =>
    simp only [List.cons_append, List.takeWhile_cons, h c (by simp)]
    rw [ih (fun x hx => h x (by simp [hx]))]
    simp

theorem lastRun_append (base d : Str) (hd : ∀ c ∈ d, c ≠ '_') :
    lastRun (base ++ '_' :: d) = d := by
  unfold lastRun
  rw [List.reverse_append]
  simp only [List.reverse_cons]
  rw [List.append_assoc]
  rw [takeWhile_append_all _ d.reverse _ (by
    intro c hc
    rw [List.mem_reverse] at hc
    simp [hd c hc])]
  simp

theorem lastRun_mkCand (name : Str) (c : Nat) : lastRun (mkCand name c) = natRepr c := by
  unfold mkCand
  exact lastRun_append _ _ (natRepr_no_underscore c)

theorem mkCand_injective (name : Str) : Function.Injective (mkCand name) := by
  intro a b h
  have := lastRun_mkCand name a
  rw [h, lastRun_mkCand] at this
  exact natRepr_injective this.symm

/-- Among the first `existing.length + 1` counters there is always a free
candidate (pigeonhole over pairwise-distinct candidates). -/
theorem exists_free_candidate (existing : List Str) (name : Str) :
    ∃ c, 1 ≤ c ∧ c ≤ existing.length + 1 ∧ mkCand name c ∉ existing := by
  by_contra hc
  push_neg at hc
  set n := existing.length with hn
  have hall : ∀ c ∈ List.range' 1 (n + 1), mkCand name c ∈ existing := by
    intro c hcm
    rw [List.mem_range'_1] at hcm
    exact hc c hcm.1 (by omega)
  have hsub : (List.range' 1 (n + 1)).map (mkCand name) ⊆ existing := by
    intro x hx
    rcases List.mem_map.mp hx with ⟨c, hcm, rfl⟩
    exact hall c hcm
  have hnodup : ((List.range' 1 (n + 1)).map (mkCand name)).Nodup :=
    (List.nodup_range' _ _).map (mkCand_injective name)
  have h1 : ((List.range' 1 (n + 1)).map (mkCand name)).toFinset.card = n + 1 := by
    rw [List.toFinset_card_of_nodup hnodup]
    simp
  have h2 : ((List.range' 1 (n + 1)).map (mkCand name)).toFinset ⊆ existing.toFinset := by
    intro x hx
    rw [List.mem_toFinset] at hx ⊢
    exact hsub hx
  have h3 := Finset.card_le_card h2
  have h4 := List.toFinset_card_le (l := existing)
  omega

/-- If some counter in `[start, start + fuel)` is free, the loop returns the
first free one. -/
theorem uniqueLoop_finds (existing : List Str) (name : Str) :
    ∀ fuel start, (∃ k, k < fuel ∧ mkCand name (start + k) ∉ existing) →
    ∃ c, start ≤ c ∧ uniqueLoop existing name start fuel = some (mkCand name c) ∧
      mkCand name c ∉ existing ∧ ∀ j, start ≤ j → j < c → mkCand name j ∈ existing
  | 0, _, h => by
    rcases h with ⟨k, hk, _⟩
    omega
  | fuel + 1, start, h => by
    by_cases hm : mkCand name start ∈ existing
    · rcases h with ⟨k, hk, hfree⟩
      have hk0 : k ≠ 0 := by
        intro h0
        rw [h0] at hfree
        simp at hfree
        exact hfree hm
      have ih := uniqueLoop_finds existing name fuel (start + 1)
        ⟨k - 1, by omega, by
          have : start + 1 + (k - 1) = start + k := by omega
          rw [this]
          exact hfree⟩
      rcases ih with ⟨c, hc1, hc2, hc3, hc4⟩
      refine ⟨c, by omega, ?_, hc3, ?_⟩
      · rw [uniqueLoop]
        simp only [hm, if_pos]
        exact hc2
      · intro j hj1 hj2
        by_cases hjs : j = start
        · rw [hjs]; exact hm
        · exact hc4 j (by omega) hj2
    · refine ⟨start, le_refl _, ?_, hm, by omega⟩
      rw [uniqueLoop]
      simp [hm]

/-- The suffix search always terminates: `existing.length + 1` iterations
suffice for every finite workbook state. -/
theorem uniqueLoop_fuel_sufficient (existing : List Str) (name : Str) :
    ∃ c, 1 ≤ c ∧ c ≤ existing.length + 1 ∧
      uniqueLoop existing name 1 (existing.length + 1) = some (mkCand name c) ∧
      mkCand name c ∉ existing := by
  rcases exists_free_candidate existing name with ⟨c0, hc01, hc02, hc0f⟩
  rcases uniqueLoop_finds existing name (existing.length + 1) 1
      ⟨c0 - 1, by omega, by
        have : 1 + (c0 - 1) = c0 := by omega
        rw [this]
        exact hc0f⟩ with ⟨c, hc1, hc2, hc3, hc4⟩
  refine ⟨c, hc1, ?_, hc2, hc3⟩
  by_contra hgt
  push_neg at hgt
  exact hc0f (hc4 c0 hc01 (by omega))

theorem pyslice_length_le_of_nonneg (m : Int) (l : Str) (h : 0 ≤ m) :
    (pyslice m l).length ≤ m.toNat := by
  unfold pyslice
  rw [if_pos h]
  simp

/-- While the counter stays below `10^30` the suffix has at most 31
characters and the candidate stays within the 31-character limit. -/
theorem mkCand_length_le (name : Str) (c : Nat) (h : c < 10 ^ 30) :
    (mkCand name c).length ≤ 31 := by
  have hd : (toDigitsRev c).length ≤ 30 := length_toDigitsRev_le c 30 (by omega) h
  have hr : (natRepr c).length ≤ 30 := by rw [natRepr_length_eq]; exact hd
  unfold mkCand
  simp only [List.length_append, List.length_cons]
  have hnn : (0 : Int) ≤ 31 - (('_' :: natRepr c).length : Int) := by
    simp only [List.length_cons]
    omega
  have := pyslice_length_le_of_nonneg (31 - (('_' :: natRepr c).length : Int)) name hnn
  simp only [List.length_cons] at this ⊢
  omega

/-- Once the counter reaches `10^30` the suffix alone exceeds 31 characters,
so the candidate is longer than 31 characters (Python's negative slice drops
characters from the end of the base but the suffix is kept whole). -/
theorem mkCand_length_gt (name : Str) (c : Nat) (h : 10 ^ 30 ≤ c) :
    31 < (mkCand name c).length := by
  have hd : 31 ≤ (toDigitsRev c).length := length_toDigitsRev_ge c 30 h
  have hr : 31 ≤ (natRepr c).length := by rw [natRepr_length_eq]; exact hd
  unfold mkCand
  simp only [List.length_append, List.length_cons]
  omega

/-- The name returned by `_make_unique_sheet_name` is never an existing one. -/
theorem make_unique_not_mem (existing : List Str) (name : Str) :
    _make_unique_sheet_name existing name ∉ existing := by
  unfold _make_unique_sheet_name
  by_cases hm : name ∈ existing
  · rw [if_pos hm]
    rcases uniqueLoop_fuel_sufficient existing name with ⟨c, _, _, hloop, hfree⟩
    rw [hloop]
    simpa using hfree
  · rw [if_neg hm]
    exact hm

/-- Shape of the returned name: either the sanitized candidate itself, or a
suffixed candidate whose counter is bounded by `existing.length + 1`. -/
theorem make_unique_shape (existing : List Str) (name : Str) :
    _make_unique_sheet_name existing name = name ∨
    ∃ c, 1 ≤ c ∧ c ≤ existing.length + 1 ∧
      _make_unique_sheet_name existing name = mkCand name c := by
  unfold _make_unique_sheet_name
  by_cases hm : name ∈ existing
  · rw [if_pos hm]
    rcases uniqueLoop_fuel_sufficient existing name with ⟨c, hc1, hc2, hloop, _⟩
    right
    exact ⟨c, hc1, hc2, by rw [hloop]; rfl⟩
  · rw [if_neg hm]
    left
    rfl

/-- First-free-suffix characterization: if the candidate collides, the result
is `mkCand name c` for the least free counter `c`. -/
theorem make_unique_first_free (existing : List Str) (name : Str) (hm : name ∈ existing) :
    ∃ c, 1 ≤ c ∧ _make_unique_sheet_name existing name = mkCand name c ∧
      mkCand name c ∉ existing ∧ ∀ j, 1 ≤ j → j < c → mkCand name j ∈ existing := by
  rcases exists_free_candidate existing name with ⟨c0, hc01, hc02, hc0f⟩
  rcases uniqueLoop_finds existing name (existing.length + 1) 1
      ⟨c0 - 1, by omega, by
        have h10 : 1 + (c0 - 1) = c0 := by omega
        rw [h10]
        exact hc0f⟩ with ⟨c, hc1, hc2, hc3, hc4⟩
  refine ⟨c, hc1, ?_, hc3, fun j hj1 hj2 => hc4 j hj1 hj2⟩
  unfold _make_unique_sheet_name
  rw [if_pos hm, hc2]
  rfl

/-- Length bound for the returned name, under the realistic counter bound. -/
theorem make_unique_length_le (existing : List Str) (name : Str)
    (hname : name.length ≤ 31) (hb : existing.length + 1 < 10 ^ 30) :
    (_make_unique_sheet_name existing name).length ≤ 31 := by
  rcases make_unique_shape existing name with h | ⟨c, _, hc2, h⟩
  · rw [h]; exact hname
  · rw [h]
    exact mkCand_length_le name c (by omega)

/-! ### `_sanitize_filename` (file_manager.py lines 75-96) -/

/-- The characters stripped from filenames: `< > : " / \ | ? *`. -/
def fileInvalidChars : Str := "<>:\"/\\|?*".toList

/-- Python `result.replace(char, '')`. -/
def removeChar (c : Char) (l : Str) : Str := l.filter (fun x => x ≠ c)

/-- The sequential `for char in invalid_chars: result = result.replace(char, '')`. -/
def removeAllInvalid (l : Str) : Str :=
  fileInvalidChars.foldl (fun acc c => removeChar c acc) l

/-- Python `result.replace(' ', '_')`. -/
def spaceToUnderscore (l : Str) : Str :=
  l.map (fun x => if x = ' ' then '_' else x)

/-- One pass of Python `result.replace('__', '_')`: left-to-right,
non-overlapping. -/
def replaceUU : Str → Str
  | c1 :: c2 :: rest =>
    if c1 = '_' ∧ c2 = '_' then '_' :: replaceUU rest
    else c1 :: replaceUU (c2 :: rest)
  | l => l

/-- Python `'__' in result`. -/
def hasUU : Str → Bool
  | c1 :: c2 :: rest => (c1 = '_' && c2 = '_') || hasUU (c2 :: rest)
  | _ => false

theorem replaceUU_length_le : ∀ l : Str, (replaceUU l).length ≤ l.length
  | [] => by simp [replaceUU]
  | [c] => by simp [replaceUU]
  | c1 :: c2 :: rest => by
    rw [replaceUU]
    by_cases huu : c1 = '_' ∧ c2 = '_'
    · rw [if_pos huu]
      simp only [List.length_cons]
      have := replaceUU_length_le rest
      omega
    · rw [if_neg huu]
      simp only [List.length_cons]
      have := replaceUU_length_le (c2 :: rest)
      simp only [List.length_cons] at this
      omega

theorem replaceUU_length_lt : ∀ l : Str, hasUU l = true → (replaceUU l).length < l.length
  | [], h => by simp [hasUU] at h
  | [_], h => by simp [hasUU] at h
  | c1 :: c2 :: rest, h => by
    rw [replaceUU]
    by_cases huu : c1 = '_' ∧ c2 = '_'
    · rw [if_pos huu]
      simp only [List.length_cons]
      have : (replaceUU rest).length ≤ rest.length := replaceUU_length_le rest
      omega
    · rw [if_neg huu]
      simp only [List.length_cons]
      have hr : hasUU (c2 :: rest) = true := by
        rw [hasUU] at h
        simp only [Bool.or_eq_true, Bool.and_eq_true, decide_eq_true_eq] at h
        rcases h with ⟨h1, h2⟩ | h
        · exact absurd ⟨h1, h2⟩ huu
        · exact h
      have := replaceUU_length_lt (c2 :: rest) hr
      simp only [List.length_cons] at this
      omega

theorem mem_replaceUU : ∀ (l : Str) (x : Char), x ∈ replaceUU l → x ∈ l
  | [], x, h => by simp [replaceUU] at h
  | [c], x, h => by simpa [replaceUU] using h
  | c1 :: c2 :: rest, x, h => by
    rw [replaceUU] at h
    by_cases huu : c1 = '_' ∧ c2 = '_'
    · rw [if_pos huu] at h
      rcases List.mem_cons.mp h with h | h
      · simp [h, huu.1]
      · have := mem_replaceUU rest x h
        simp [this]
    · rw [if_neg huu] at h
      rcases List.mem_cons.mp h with h | h
      · simp [h]
      · have := mem_replaceUU (c2 :: rest) x h
        simp only [List.mem_cons] at this ⊢
        tauto

/-- The `while '__' in result` loop of `_sanitize_filename`. -/
def collapseUU (l : Str) : Str :=
  if _huu : hasUU l = true then collapseUU (replaceUU l) else l
termination_by l.length
decreasing_by exact replaceUU_length_lt l _huu

theorem collapseUU_eq (l : Str) :
    collapseUU l = if hasUU l = true then collapseUU (replaceUU l) else l := by
  rw [collapseUU]
  split <;> simp_all

theorem hasUU_collapseUU (l : Str) : hasUU (collapseUU l) = false := by
  rw [collapseUU_eq]
  by_cases h : hasUU l = true
  · rw [if_pos h]
    exact hasUU_collapseUU (replaceUU l)
  · rw [if_neg h]
    simpa using h
termination_by l.length
decreasing_by exact replaceUU_length_lt l h

theorem mem_collapseUU (l : Str) (x : Char) (hx : x ∈ collapseUU l) : x ∈ l := by
  rw [collapseUU_eq] at hx
  by_cases h : hasUU l = true
  · rw [if_pos h] at hx
    exact mem_replaceUU l x (mem_collapseUU (replaceUU l) x hx)
  · rw [if_neg h] at hx
    exact hx
termination_by l.length
decreasing_by exact replaceUU_length_lt l h

theorem collapseUU_of_not_hasUU (l : Str) (h : hasUU l = false) : collapseUU l = l := by
  rw [collapseUU_eq, h]
  simp

theorem hasUU_take (l : Str) (n : Nat) (h : hasUU l = false) : hasUU (l.take n) = false := by
  induction l generalizing n with
  | nil => simp [hasUU]
  | cons c1 rest ih =>
    cases rest with
    | nil =>
      cases n with
      | zero => simp [hasUU]
      | succ m =>
        simp only [List.take_succ_cons, List.take_nil]
        cases m <;> simp [hasUU]
    | cons c2 rest2 =>
      rw [hasUU] at h
      simp only [Bool.or_eq_false_iff, Bool.and_eq_false_iff] at h
      cases n with
      | zero => simp [hasUU]
      | succ m =>
        cases m with
        | zero => simp [hasUU]
        | succ m2 =>
          simp only [List.take_succ_cons]
          rw [hasUU]
          have := ih (m2 + 1) h.2
          simp only [List.take_succ_cons] at this
          rw [this]
          rcases h.1 with h1 | h1 <;> simp [h1]

/-- `_sanitize_filename` (file_manager.py lines 75-96): strip invalid
characters, spaces to underscores, collapse runs of underscores, truncate
to 100. -/
def _sanitize_filename (name : Str) : Str :=
  (collapseUU (spaceToUnderscore (removeAllInvalid name))).take 100

/-! ### `_sanitize_sheet_name` (file_manager.py lines 312-318) -/

/-- The characters invalid in sheet names: `\ / * ? : [ ]`. -/
def sheetInvalidChars : Str := "\\/*?:[]".toList

/-- Python `result.replace(char, '_')`. -/
def replaceChar (c : Char) (l : Str) : Str :=
  l.map (fun x => if x = c then '_' else x)

/-- The sequential replacement loop of `_sanitize_sheet_name`. -/
def sheetCharReplace (l : Str) : Str :=
  sheetInvalidChars.foldl (fun acc c => replaceChar c acc) l

/-- `_sanitize_sheet_name` (file_manager.py lines 312-318): replace invalid
characters with underscore, truncate to 31. -/
def _sanitize_sheet_name (name : Str) : Str :=
  (sheetCharReplace name).take 31

theorem sanitize_sheet_name_length (name : Str) : (_sanitize_sheet_name name).length ≤ 31 := by
  unfold _sanitize_sheet_name
  simp

/-! ### Idempotence machinery for the sanitizers -/

theorem mem_foldl_removeChar :
    ∀ (cs : Str) (l : Str) (x : Char),
      x ∈ cs.foldl (fun acc c => removeChar c acc) l → x ∈ l ∧ x ∉ cs
  | [], l, x => by
    intro h
    simpa using h
  | c :: cs, l, x => by
    intro h
    simp only [List.foldl_cons] at h
    have := mem_foldl_removeChar cs (removeChar c l) x h
    rcases this with ⟨h1, h2⟩
    unfold removeChar at h1
    rw [List.mem_filter] at h1
    simp only [decide_eq_true_eq] at h1
    refine ⟨h1.1, ?_⟩
    simp only [List.mem_cons, not_or]
    exact ⟨h1.2, h2⟩

theorem foldl_removeChar_id :
    ∀ (cs : Str) (l : Str), (∀ x ∈ l, x ∉ cs) → cs.foldl (fun acc c => removeChar c acc) l = l
  | [], l, _ => rfl
  | c :: cs, l, h => by
    simp only [List.foldl_cons]
    have hrc : removeChar c l = l := by
      unfold removeChar
      rw [List.filter_eq_self]
      intro a ha
      simp only [decide_eq_true_eq]
      intro hac
      exact h a ha (by simp [hac])
    rw [hrc]
    exact foldl_removeChar_id cs l (fun x hx hc => h x hx (by simp [hc]))

theorem mem_spaceToUnderscore (l : Str) (x : Char) (hx : x ∈ spaceToUnderscore l) :
    x ≠ ' ' ∧ (x = '_' ∨ x ∈ l) := by
  unfold spaceToUnderscore at hx
  rcases List.mem_map.mp hx with ⟨y, hy, hxy⟩
  by_cases hys : y = ' '
  · rw [hys] at hxy
    simp at hxy
    subst hxy
    exact ⟨by decide, Or.inl rfl⟩
  · rw [if_neg hys] at hxy
    subst hxy
    exact ⟨hys, Or.inr hy⟩

theorem spaceToUnderscore_id (l : Str) (h : ∀ x ∈ l, x ≠ ' ') : spaceToUnderscore l = l := by
  unfold spaceToUnderscore
  rw [List.map_congr_left (g := id) (fun a ha => by simp [h a ha]), List.map_id]

theorem mem_sheetCharReplace_aux :
    ∀ (cs : Str) (l : Str) (x : Char),
      x ∈ cs.foldl (fun acc c => replaceChar c acc) l → x = '_' ∨ (x ∈ l ∧ x ∉ cs)
  | [], l, x => by
    intro h
    simp only [List.foldl_nil] at h
    simp [h]
  | c :: cs, l, x => by
    intro h
    simp only [List.foldl_cons] at h
    rcases mem_sheetCharReplace_aux cs (replaceChar c l) x h with h1 | ⟨h1, h2⟩
    · exact Or.inl h1
    · unfold replaceChar at h1
      rcases List.mem_map.mp h1 with ⟨y, hy, hxy⟩
      by_cases hyc : y = c
      · rw [if_pos hyc] at hxy
        exact Or.inl hxy.symm
      · rw [if_neg hyc] at hxy
        subst hxy
        right
        refine ⟨hy, ?_⟩
        simp only [List.mem_cons, not_or]
        exact ⟨hyc, h2⟩

theorem foldl_replaceChar_id :
    ∀ (cs : Str) (l : Str), (∀ x ∈ l, x ∉ cs) → cs.foldl (fun acc c => replaceChar c acc) l = l
  | [], l, _ => rfl
  | c :: cs, l, h => by
    simp only [List.foldl_cons]
    have hrc : replaceChar c l = l := by
      unfold replaceChar
      rw [List.map_congr_left (g := id) (fun a ha => by
        have : a ≠ c := fun hac => h a ha (by simp [hac])
        simp [this]), List.map_id]
    rw [hrc]
    exact foldl_replaceChar_id cs l (fun x hx hc => h x hx (by simp [hc]))

/-- Every character of a file-sanitized name is outside the invalid set and
is not a space. -/
theorem sanitize_filename_chars (name : Str) (x : Char) (hx : x ∈ _sanitize_filename name) :
    x ∉ fileInvalidChars ∧ x ≠ ' ' := by
  unfold _sanitize_filename at hx
  have hx1 : x ∈ collapseUU (spaceToUnderscore (removeAllInvalid name)) :=
    List.mem_of_mem_take hx
  have hx2 : x ∈ spaceToUnderscore (removeAllInvalid name) := mem_collapseUU _ x hx1
  rcases mem_spaceToUnderscore _ x hx2 with ⟨hns, hcase⟩
  refine ⟨?_, hns⟩
  rcases hcase with h | h
  · subst h
    decide
  · exact (mem_foldl_removeChar fileInvalidChars name x h).2

/-- `_sanitize_filename` is a fixed point after one application. -/
theorem sanitize_filename_idem (name : Str) :
    _sanitize_filename (_sanitize_filename name) = _sanitize_filename name := by
  set r := _sanitize_filename name with hr
  have h1 : removeAllInvalid r = r :=
    foldl_removeChar_id fileInvalidChars r (fun x hx => (sanitize_filename_chars name x hx).1)
  have h2 : spaceToUnderscore r = r :=
    spaceToUnderscore_id r (fun x hx => (sanitize_filename_chars name x hx).2)
  have h3 : hasUU r = false := by
    rw [hr]
    unfold _sanitize_filename
    exact hasUU_take _ 100 (hasUU_collapseUU _)
  have h4 : collapseUU r = r := collapseUU_of_not_hasUU r h3
  show (collapseUU (spaceToUnderscore (removeAllInvalid r))).take 100 = r
  rw [h1, h2, h4, hr]
  unfold _sanitize_filename
  rw [List.take_take]
  simp

/-- Every character of a sheet-sanitized name is outside the invalid set. -/
theorem sanitize_sheet_chars (name : Str) (x : Char) (hx : x ∈ _sanitize_sheet_name name) :
    x ∉ sheetInvalidChars := by
  unfold _sanitize_sheet_name at hx
  have hx1 : x ∈ sheetCharReplace name := List.mem_of_mem_take hx
  rcases mem_sheetCharReplace_aux sheetInvalidChars name x hx1 with h | ⟨_, h⟩
  · subst h
    decide
  · exact h

/-- `_sanitize_sheet_name` is a fixed point after one application. -/
theorem sanitize_sheet_name_idem (name : Str) :
    _sanitize_sheet_name (_sanitize_sheet_name name) = _sanitize_sheet_name name := by
  set r := _sanitize_sheet_name name with hr
  have h1 : sheetCharReplace r = r :=
    foldl_replaceChar_id sheetInvalidChars r (fun x hx => sanitize_sheet_chars name x hx)
  show (sheetCharReplace r).take 31 = r
  rw [h1, hr]
  unfold _sanitize_sheet_name
  rw [List.take_take]
  simp

/-! ### Workbook data model (openpyxl objects as seen by file_manager.py) -/

/-- A cell value: text, number, or empty (Python `None`). -/
inductive CellVal
  | vstr (s : Str)
  | vint (n : Int)
  | vnone
deriving DecidableEq

/-- Style attributes copied by `_copy_sheet_data`; modelled as opaque
identifiers for font, fill, border and alignment plus the number format. -/
structure CellStyle where
  font : Nat
  fill : Nat
  border : Nat
  alignment : Nat
  number_format : Str
deriving DecidableEq

/-- The default style of a freshly created cell. -/
def defaultStyle : CellStyle := ⟨0, 0, 0, 0, []⟩

/-- A grid position as yielded by `iter_rows`: either an ordinary cell or an
openpyxl `MergedCell` placeholder (a non-anchor position of a merged range,
carrying no independent value). -/
inductive Cell
  | plain (v : CellVal) (hasStyle : Bool) (style : CellStyle)
  | mergedPlaceholder
deriving DecidableEq

/-- An unwritten cell of a fresh sheet. -/
def emptyCell : Cell := Cell.plain CellVal.vnone false defaultStyle

/-- A merged rectangular range (`min_row`, `min_col`, `max_row`, `max_col`). -/
structure MergedRange where
  minRow : Nat
  minCol : Nat
  maxRow : Nat
  maxCol : Nat
deriving DecidableEq

/-- A worksheet: title, the rectangular grid yielded by `iter_rows`
(row-major), merged ranges, and explicit column-width / row-height
overrides. -/
structure Sheet where
  title : Str
  rows : List (List Cell)
  merged : List MergedRange
  colWidths : List (Str × Int)
  rowHeights : List (Nat × Int)
deriving DecidableEq

/-- A workbook: an ordered sequence of worksheets. -/
structure Workbook where
  sheets : List Sheet
deriving DecidableEq

/-- The value held at a cell (a `MergedCell` placeholder carries none). -/
def cellValue : Cell → CellVal
  | Cell.plain v _ _ => v
  | Cell.mergedPlaceholder => CellVal.vnone

/-- The value of sheet `sh` at 1-indexed coordinates `(r, c)`; positions
outside the grid read as empty. -/
def valueAt (sh : Sheet) (r c : Nat) : CellVal :=
  cellValue ((sh.rows.getD (r - 1) []).getD (c - 1) emptyCell)

/-- What `_copy_sheet_data` writes at one grid position: plain cells have
their value copied, and their style attributes only when `cell.has_style`;
`MergedCell` placeholders are skipped, leaving the target cell unwritten. -/
def copyCell : Cell → Cell
  | Cell.plain v hs st => Cell.plain v hs (if hs then st else defaultStyle)
  | Cell.mergedPlaceholder => emptyCell

/-- `_copy_sheet_data` (file_manager.py lines 336-365): copy all cell data
into the freshly created target sheet, then re-apply the merged ranges, then
the column widths and row heights. -/
def _copy_sheet_data (source_sheet : Sheet) (targetTitle : Str) : Sheet :=
  { title := targetTitle
    rows := source_sheet.rows.map (fun row => row.map copyCell)
    merged := source_sheet.merged
    colWidths := source_sheet.colWidths
    rowHeights := source_sheet.rowHeights }

/-! ### The consolidator (`consolidate_excel_files`, file_manager.py
lines 233-310) -/

/-- What the filesystem holds at a source path: present files either parse to
a workbook or raise on `load_workbook` (`none` = corrupt). -/
abbrev Fs := List (Str × Option Workbook)

def lookupFs (fs : Fs) (p : Str) : Option (Option Workbook) :=
  match fs with
  | [] => none
  | (q, w) :: rest => if q = p then some w else lookupFs rest p

/-- Error kinds surfaced by the consolidator (spec §7). -/
inductive ConsErr
  | emptySourceList
  | missingSourceFile (p : Str)
  | corruptWorkbook (p : Str)
deriving DecidableEq

/-- Return-or-raise outcome of `consolidate_excel_files`. -/
inductive ConsOutcome
  | ok (path : Str)
  | err (e : ConsErr)
deriving DecidableEq

/-- Observable behaviour of one `consolidate_excel_files` call: the outcome,
what was persisted to disk, the number of sheets copied, the load attempts
(document I/O), and the handle bookkeeping. -/
structure ConsResult where
  result : ConsOutcome
  written : Option (Str × Workbook)
  sheetCount : Nat
  loads : List Str
  opened : List Str
  closed : List Str
  outputOpened : Bool
  outputClosed : Bool
deriving DecidableEq

/-- The titles of a list of sheets (`[sheet.title for sheet in worksheets]`). -/
def titlesOf (l : List Sheet) : List Str := l.map Sheet.title

/-- The placeholder sheet created by `Workbook()`, titled `"Sheet"`. -/
def placeholderSheet : Sheet :=
  { title := "Sheet".toList, rows := [], merged := [], colWidths := [], rowHeights := [] }

/-- `os.path.basename`: the part of the path after the last `/`. -/
def basenameStr (p : Str) : Str :=
  (p.reverse.takeWhile (fun c => c ≠ '/')).reverse

/-- The root part of `os.path.splitext`: split at the last dot, unless every
character before it is a dot (leading dots are not extension separators). -/
def splitextRoot (b : Str) : Str :=
  let afterDotRev := b.reverse.takeWhile (fun c => c ≠ '.')
  if afterDotRev.length = b.length then b
  else
    let rootLen := b.length - afterDotRev.length - 1
    if (b.take rootLen).all (fun c => c = '.') then b else b.take rootLen

/-- The no-custom-prefix candidate: first 15 characters of the source file's
base filename, an underscore, then the source sheet title
(file_manager.py lines 278-280). -/
def defaultCandidate (file_path : Str) (title : Str) : Str :=
  let base_name := splitextRoot (basenameStr file_path)
  let short_base := if base_name.length > 15 then base_name.take 15 else base_name
  short_base ++ '_' :: title

/-- The candidate target name for one source sheet (file_manager.py
lines 272-280).  `if sheet_names and file_idx < len(sheet_names)` is Python
truthiness: an empty list behaves like `None`. -/
def targetNameFor (sheet_names : Option (List Str)) (file_idx : Nat) (file_path : Str)
    (numSheets : Nat) (title : Str) : Str :=
  match sheet_names with
  | some ns =>
    if ns ≠ [] ∧ file_idx < ns.length then
      if numSheets > 1 then ns.getD file_idx [] ++ '_' :: title
      else ns.getD file_idx []
    else defaultCandidate file_path title
  | none => defaultCandidate file_path title

/-- Copy one source sheet into the output workbook: sanitize and
collision-resolve its target name, then append the copied sheet
(`create_sheet` appends at the end). -/
def addSheet (sheet_names : Option (List Str)) (file_idx : Nat) (file_path : Str)
    (numSheets : Nat) (out : List Sheet) (src : Sheet) : List Sheet :=
  let cand := targetNameFor sheet_names file_idx file_path numSheets src.title
  let n1 := _sanitize_sheet_name cand
  let n2 := _make_unique_sheet_name (titlesOf out) n1
  out ++ [_copy_sheet_data src n2]

/-- The `for source_sheet in source_wb.worksheets` loop, carrying the output
sheet list and the running `sheet_index`. -/
def addAll (sheet_names : Option (List Str)) (file_idx : Nat) (file_path : Str)
    (numSheets : Nat) : List Sheet × Nat → List Sheet → List Sheet × Nat
  | st, [] => st
  | (out, idx), s :: rest =>
    addAll sheet_names file_idx file_path numSheets
      (addSheet sheet_names file_idx file_path numSheets out s, idx + 1) rest

/-- Mutable state of one consolidation call while the source files are
processed. -/
structure ConsState where
  outSheets : List Sheet
  sheetIndex : Nat
  loads : List Str
  opened : List Str
  closed : List Str
deriving DecidableEq

/-- The `for file_idx, file_path in enumerate(file_paths)` loop: load each
source (recording the I/O attempt), copy its sheets, close it; a failed load
aborts the whole job with the raised error. -/
def processFiles (fs : Fs) (sheet_names : Option (List Str)) :
    Nat → List Str → ConsState → ConsState × Option ConsErr
  | _, [], st => (st, none)
  | file_idx, p :: rest, st =>
    let st1 := { st with loads := st.loads ++ [p] }
    match lookupFs fs p with
    | none => (st1, some (ConsErr.missingSourceFile p))
    | some none => (st1, some (ConsErr.corruptWorkbook p))
    | some (some wb) =>
      let st2 := { st1 with opened := st1.opened ++ [p] }
      let pr := addAll sheet_names file_idx p wb.sheets.length
        (st2.outSheets, st2.sheetIndex) wb.sheets
      let st3 := { st2 with outSheets := pr.1, sheetIndex := pr.2,
                            closed := st2.closed ++ [p] }
      processFiles fs sheet_names (file_idx + 1) rest st3

/-- The first path of the list that does not exist on the filesystem. -/
def firstMissing (fs : Fs) : List Str → Option Str
  | [] => none
  | p :: rest => if lookupFs fs p = none then some p else firstMissing fs rest

/-- `os.path.join(self.download_dir, output_filename)`. -/
def outputPathOf (dir fn : Str) : Str := dir ++ '/' :: fn

/-- The state right after `output_wb = Workbook()`: one placeholder sheet,
nothing loaded, opened or closed yet. -/
def consInit : ConsState :=
  { outSheets := [placeholderSheet], sheetIndex := 0, loads := [], opened := [], closed := [] }

/-- The final sheet list: the placeholder is removed iff at least one sheet
was copied and the default sheet still carries its untouched title
(`if sheet_index > 0 and default_sheet.title == "Sheet"`). -/
def finalOf (st : ConsState) : List Sheet :=
  if 0 < st.sheetIndex ∧ (titlesOf st.outSheets).head? = some "Sheet".toList then
    st.outSheets.drop 1
  else st.outSheets

/-- `consolidate_excel_files` (file_manager.py lines 233-310). -/
def consolidate_excel_files (fs : Fs) (download_dir : Str) (file_paths : List Str)
    (output_filename : Str) (sheet_names : Option (List Str)) : ConsResult :=
  if file_paths = [] then
    { result := ConsOutcome.err ConsErr.emptySourceList, written := none, sheetCount := 0,
      loads := [], opened := [], closed := [], outputOpened := false, outputClosed := false }
  else
    match firstMissing fs file_paths with
    | some p =>
      { result := ConsOutcome.err (ConsErr.missingSourceFile p), written := none, sheetCount := 0,
        loads := [], opened := [], closed := [], outputOpened := false, outputClosed := false }
    | none =>
      match processFiles fs sheet_names 0 file_paths consInit with
      | (st, some e) =>
        { result := ConsOutcome.err e, written := none, sheetCount := st.sheetIndex,
          loads := st.loads, opened := st.opened, closed := st.closed,
          outputOpened := true, outputClosed := false }
      | (st, none) =>
        let p := outputPathOf download_dir output_filename
        { result := ConsOutcome.ok p, written := some (p, ⟨finalOf st⟩),
          sheetCount := st.sheetIndex,
          loads := st.loads, opened := st.opened, closed := st.closed,
          outputOpened := true, outputClosed := true }

/-! ### Cell-level behaviour of `_copy_sheet_data` -/

theorem cellValue_copyCell (c : Cell) : cellValue (copyCell c) = cellValue c := by
  cases c <;> rfl

/-- Copying preserves every cell value at identical coordinates. -/
theorem valueAt_copy (s : Sheet) (t : Str) (r c : Nat) :
    valueAt (_copy_sheet_data s t) r c = valueAt s r c := by
  unfold valueAt _copy_sheet_data
  simp only [List.getD_eq_getElem?_getD, List.getElem?_map]
  cases hrow : s.rows[r - 1]? with
  | none => simp
  | some row =>
    simp only [Option.map_some', Option.getD_some]
    simp only [List.getD_eq_getElem?_getD, List.getElem?_map]
    cases hcell : row[c - 1]? with
    | none => simp
    | some x =>
      simp only [Option.map_some', Option.getD_some]
      exact cellValue_copyCell x

/-! ### Shape of sanitized candidates (they always keep an underscore) -/

theorem sheetCharReplace_length (l : Str) : (sheetCharReplace l).length = l.length := by
  unfold sheetCharReplace
  generalize sheetInvalidChars = cs
  induction cs generalizing l with
  | nil => rfl
  | cons c cs ih =>
    simp only [List.foldl_cons]
    rw [ih (replaceChar c l)]
    unfold replaceChar
    simp

theorem foldl_replaceChar_append_underscore (cs : Str) (hnu : '_' ∉ cs) :
    ∀ a b : Str, cs.foldl (fun acc c => replaceChar c acc) (a ++ '_' :: b) =
      cs.foldl (fun acc c => replaceChar c acc) a ++
        '_' :: cs.foldl (fun acc c => replaceChar c acc) b := by
  induction cs with
  | nil => intro a b; rfl
  | cons c cs ih =>
    intro a b
    simp only [List.foldl_cons]
    have hstep : replaceChar c (a ++ '_' :: b) = replaceChar c a ++ '_' :: replaceChar c b := by
      unfold replaceChar
      simp only [List.map_append, List.map_cons]
      have : ('_' : Char) ≠ c := fun h => hnu (by simp [← h])
      simp [this]
    rw [hstep]
    exact ih (fun h => hnu (by simp [h])) (replaceChar c a) (replaceChar c b)

theorem sheetCharReplace_append_underscore (a b : Str) :
    sheetCharReplace (a ++ '_' :: b) =
      sheetCharReplace a ++ '_' :: sheetCharReplace b := by
  unfold sheetCharReplace
  exact foldl_replaceChar_append_underscore sheetInvalidChars (by decide) a b

/-- Sanitizing a candidate of the form `base ++ "_" ++ title` with
`base.length ≤ 15` keeps the underscore: the truncation to 31 cannot reach
it. -/
theorem underscore_mem_sanitized (a b : Str) (ha : a.length ≤ 15) :
    '_' ∈ _sanitize_sheet_name (a ++ '_' :: b) := by
  unfold _sanitize_sheet_name
  rw [sheetCharReplace_append_underscore]
  rw [List.take_append_eq_append_take]
  have hlen : (sheetCharReplace a).length = a.length := sheetCharReplace_length a
  have h31 : 31 - (sheetCharReplace a).length = (30 - (sheetCharReplace a).length) + 1 := by
    omega
  rw [h31, List.take_succ_cons]
  simp

theorem sheet_title_no_underscore : '_' ∉ "Sheet".toList := by decide

/-- A candidate with base at most 15 long never sanitizes to `"Sheet"`, so
the placeholder keeps its name and the copied sheet needs no suffix. -/
theorem sanitized_candidate_ne_sheet (a b : Str) (ha : a.length ≤ 15) :
    _sanitize_sheet_name (a ++ '_' :: b) ≠ "Sheet".toList := by
  intro h
  have := underscore_mem_sanitized a b ha
  rw [h] at this
  exact sheet_title_no_underscore this

/-- The default (no custom prefix) candidate always has its base at most 15
characters long. -/
theorem defaultCandidate_shape (file_path title : Str) :
    ∃ a, a.length ≤ 15 ∧ defaultCandidate file_path title = a ++ '_' :: title := by
  unfold defaultCandidate
  simp only []
  set base_name := splitextRoot (basenameStr file_path) with hbn
  by_cases h : base_name.length > 15
  · exact ⟨base_name.take 15, by simp, by simp only [if_pos h]⟩
  · exact ⟨base_name, by omega, by simp only [if_neg h]⟩

/-! ### Invariants of the sheet-copy loop (`addAll`) -/

theorem titlesOf_append (l1 l2 : List Sheet) :
    titlesOf (l1 ++ l2) = titlesOf l1 ++ titlesOf l2 := by
  simp [titlesOf]

theorem addSheet_titles (sn : Option (List Str)) (i : Nat) (p : Str) (n : Nat)
    (out : List Sheet) (s : Sheet) :
    titlesOf (addSheet sn i p n out s) = titlesOf out ++
      [_make_unique_sheet_name (titlesOf out)
        (_sanitize_sheet_name (targetNameFor sn i p n s.title))] := by
  unfold addSheet _copy_sheet_data
  rw [titlesOf_append]
  rfl

theorem addSheet_nodup (sn : Option (List Str)) (i : Nat) (p : Str) (n : Nat)
    (out : List Sheet) (s : Sheet) (h : (titlesOf out).Nodup) :
    (titlesOf (addSheet sn i p n out s)).Nodup := by
  rw [addSheet_titles]
  rw [List.nodup_append]
  refine ⟨h, by simp, ?_⟩
  intro x hx hmem
  simp only [List.mem_singleton] at hmem
  subst hmem
  exact make_unique_not_mem _ _ hx

theorem addAll_sheetIndex (sn : Option (List Str)) (i : Nat) (p : Str) (n : Nat) :
    ∀ (srcs : List Sheet) (out : List Sheet) (idx : Nat),
      (addAll sn i p n (out, idx) srcs).2 = idx + srcs.length
  | [], out, idx => by simp [addAll]
  | s :: rest, out, idx => by
    rw [addAll, addAll_sheetIndex sn i p n rest _ (idx + 1)]
    simp only [List.length_cons]
    omega

theorem addAll_outSheets (sn : Option (List Str)) (i : Nat) (p : Str) (n : Nat) :
    ∀ (srcs : List Sheet) (out : List Sheet) (idx : Nat),
      ∃ added, (addAll sn i p n (out, idx) srcs).1 = out ++ added ∧
        added.length = srcs.length
  | [], out, idx => ⟨[], by simp [addAll]⟩
  | s :: rest, out, idx => by
    rw [addAll]
    rcases addAll_outSheets sn i p n rest (addSheet sn i p n out s) (idx + 1) with
      ⟨added, h1, h2⟩
    refine ⟨(addSheet sn i p n out s).drop out.length ++ added, ?_, ?_⟩
    · rw [h1]
      unfold addSheet
      simp
    · unfold addSheet
      simp only [List.drop_append_eq_append_drop]
      simp [h2]

theorem addAll_nodup (sn : Option (List Str)) (i : Nat) (p : Str) (n : Nat) :
    ∀ (srcs : List Sheet) (out : List Sheet) (idx : Nat),
      (titlesOf out).Nodup → (titlesOf (addAll sn i p n (out, idx) srcs).1).Nodup
  | [], out, idx, h => by simpa [addAll] using h
  | s :: rest, out, idx, h => by
    rw [addAll]
    exact addAll_nodup sn i p n rest _ (idx + 1) (addSheet_nodup sn i p n out s h)

theorem addAll_titles_le31 (sn : Option (List Str)) (i : Nat) (p : Str) (n : Nat) :
    ∀ (srcs : List Sheet) (out : List Sheet) (idx : Nat),
      (∀ t ∈ titlesOf out, t.length ≤ 31) → out.length + srcs.length ≤ 10 ^ 29 →
      ∀ t ∈ titlesOf (addAll sn i p n (out, idx) srcs).1, t.length ≤ 31
  | [], out, idx, hall, _ => by simpa [addAll] using hall
  | s :: rest, out, idx, hall, hb => by
    rw [addAll]
    have hall2 : ∀ t ∈ titlesOf (addSheet sn i p n out s), t.length ≤ 31 := by
      rw [addSheet_titles]
      intro t ht
      rcases List.mem_append.mp ht with ht | ht
      · exact hall t ht
      · simp only [List.mem_singleton] at ht
        subst ht
        apply make_unique_length_le
        · exact sanitize_sheet_name_length _
        · have : (titlesOf out).length = out.length := by simp [titlesOf]
          rw [this]
          have h29 : (10 : Nat) ^ 29 + 1 < 10 ^ 30 := by norm_num
          simp only [List.length_cons] at hb
          omega
    have hb2 : (addSheet sn i p n out s).length + rest.length ≤ 10 ^ 29 := by
      unfold addSheet
      simp only [List.length_append, List.length_singleton, List.length_cons,
        List.length_nil] at hb ⊢
      omega
    exact addAll_titles_le31 sn i p n rest _ (idx + 1) hall2 hb2

theorem addAll_title_shape (sn : Option (List Str)) (i : Nat) (p : Str) (n : Nat) :
    ∀ (srcs : List Sheet) (out : List Sheet) (idx : Nat),
      ∀ t ∈ titlesOf (addAll sn i p n (out, idx) srcs).1,
        t ∈ titlesOf out ∨ ∃ s ∈ srcs,
          t = _sanitize_sheet_name (targetNameFor sn i p n s.title) ∨
          ∃ c, 1 ≤ c ∧ t = mkCand (_sanitize_sheet_name (targetNameFor sn i p n s.title)) c
  | [], out, idx, t, ht => by
    left
    simpa [addAll] using ht
  | s :: rest, out, idx, t, ht => by
    rw [addAll] at ht
    rcases addAll_title_shape sn i p n rest _ (idx + 1) t ht with hin | ⟨s2, hs2, hsh⟩
    · rw [addSheet_titles] at hin
      rcases List.mem_append.mp hin with hin | hin
      · exact Or.inl hin
      · simp only [List.mem_singleton] at hin
        right
        refine ⟨s, by simp, ?_⟩
        rcases make_unique_shape (titlesOf out)
            (_sanitize_sheet_name (targetNameFor sn i p n s.title)) with h | ⟨c, hc1, _, h⟩
        · left
          rw [hin, h]
        · right
          exact ⟨c, hc1, by rw [hin, h]⟩
    · right
      exact ⟨s2, by simp [hs2], hsh⟩

/-! ### Invariants of the source-file loop (`processFiles`) -/

/-- Total number of worksheets across the parseable sources of a path list. -/
def totalSheets (fs : Fs) : List Str → Nat
  | [] => 0
  | p :: rest =>
    (match lookupFs fs p with
     | some (some wb) => wb.sheets.length
     | _ => 0) + totalSheets fs rest

theorem processFiles_outSheets_shape (fs : Fs) (sn : Option (List Str)) :
    ∀ (ps : List Str) (i : Nat) (st : ConsState),
      ∃ added, (processFiles fs sn i ps st).1.outSheets = st.outSheets ++ added
  | [], _, st => ⟨[], by simp [processFiles]⟩
  | p :: rest, i, st => by
    rw [processFiles]
    cases hl : lookupFs fs p with
    | none => exact ⟨[], by simp⟩
    | some ow =>
      cases ow with
      | none => exact ⟨[], by simp⟩
      | some wb =>
        simp only []
        rcases addAll_outSheets sn i p wb.sheets.length wb.sheets st.outSheets st.sheetIndex with
          ⟨a1, h1, _⟩
        rcases processFiles_outSheets_shape fs sn rest (i + 1)
            { st with loads := st.loads ++ [p], opened := st.opened ++ [p],
                      outSheets := (addAll sn i p wb.sheets.length
                        (st.outSheets, st.sheetIndex) wb.sheets).1,
                      sheetIndex := (addAll sn i p wb.sheets.length
                        (st.outSheets, st.sheetIndex) wb.sheets).2,
                      closed := st.closed ++ [p] } with ⟨a2, h2⟩
        refine ⟨a1 ++ a2, ?_⟩
        rw [h2]
        simp only []
        rw [h1, List.append_assoc]

theorem processFiles_nodup (fs : Fs) (sn : Option (List Str)) :
    ∀ (ps : List Str) (i : Nat) (st : ConsState),
      (titlesOf st.outSheets).Nodup →
      (titlesOf (processFiles fs sn i ps st).1.outSheets).Nodup
  | [], _, st, h => by simpa [processFiles] using h
  | p :: rest, i, st, h => by
    rw [processFiles]
    cases hl : lookupFs fs p with
    | none => simpa using h
    | some ow =>
      cases ow with
      | none => simpa using h
      | some wb =>
        simp only []
        exact processFiles_nodup fs sn rest (i + 1) _
          (addAll_nodup sn i p wb.sheets.length wb.sheets st.outSheets st.sheetIndex h)

theorem processFiles_len_inv (fs : Fs) (sn : Option (List Str)) :
    ∀ (ps : List Str) (i : Nat) (st : ConsState),
      st.outSheets.length = st.sheetIndex + 1 →
      (processFiles fs sn i ps st).1.outSheets.length =
        (processFiles fs sn i ps st).1.sheetIndex + 1
  | [], _, st, h => by simpa [processFiles] using h
  | p :: rest, i, st, h => by
    rw [processFiles]
    cases hl : lookupFs fs p with
    | none => simpa using h
    | some ow =>
      cases ow with
      | none => simpa using h
      | some wb =>
        simp only []
        apply processFiles_len_inv fs sn rest (i + 1)
        simp only []
        rcases addAll_outSheets sn i p wb.sheets.length wb.sheets st.outSheets st.sheetIndex with
          ⟨a1, h1, hlen⟩
        rw [h1, addAll_sheetIndex]
        simp only [List.length_append]
        omega

theorem processFiles_handles (fs : Fs) (sn : Option (List Str)) :
    ∀ (ps : List Str) (i : Nat) (st : ConsState),
      st.opened = st.closed →
      (processFiles fs sn i ps st).1.opened = (processFiles fs sn i ps st).1.closed
  | [], _, st, h => by simpa [processFiles] using h
  | p :: rest, i, st, h => by
    rw [processFiles]
    cases hl : lookupFs fs p with
    | none => simpa using h
    | some ow =>
      cases ow with
      | none => simpa using h
      | some wb =>
        simp only []
        apply processFiles_handles fs sn rest (i + 1)
        simp only []
        rw [h]

theorem processFiles_ok_of_all_parse (fs : Fs) (sn : Option (List Str)) :
    ∀ (ps : List Str) (i : Nat) (st : ConsState),
      (∀ q ∈ ps, ∃ wb, lookupFs fs q = some (some wb)) →
      (processFiles fs sn i ps st).2 = none
  | [], _, _, _ => by simp [processFiles]
  | p :: rest, i, st, h => by
    rw [processFiles]
    rcases h p (by simp) with ⟨wb, hwb⟩
    rw [hwb]
    simp only []
    exact processFiles_ok_of_all_parse fs sn rest (i + 1) _
      (fun q hq => h q (by simp [hq]))

theorem processFiles_corrupt (fs : Fs) (sn : Option (List Str)) :
    ∀ (l1 : List Str) (p : Str) (l2 : List Str) (i : Nat) (st : ConsState),
      (∀ q ∈ l1, ∃ wb, lookupFs fs q = some (some wb)) →
      lookupFs fs p = some none →
      (processFiles fs sn i (l1 ++ p :: l2) st).2 = some (ConsErr.corruptWorkbook p)
  | [], p, l2, i, st, _, hp => by
    rw [List.nil_append, processFiles, hp]
  | q :: l1, p, l2, i, st, h, hp => by
    rw [List.cons_append, processFiles]
    rcases h q (by simp) with ⟨wb, hwb⟩
    rw [hwb]
    simp only []
    exact processFiles_corrupt fs sn l1 p l2 (i + 1) _
      (fun r hr => h r (by simp [hr])) hp

theorem processFiles_titles_le31 (fs : Fs) (sn : Option (List Str)) :
    ∀ (ps : List Str) (i : Nat) (st : ConsState),
      (∀ t ∈ titlesOf st.outSheets, t.length ≤ 31) →
      st.outSheets.length + totalSheets fs ps ≤ 10 ^ 29 →
      ∀ t ∈ titlesOf (processFiles fs sn i ps st).1.outSheets, t.length ≤ 31
  | [], _, st, hall, _ => by simpa [processFiles] using hall
  | p :: rest, i, st, hall, hb => by
    rw [processFiles]
    cases hl : lookupFs fs p with
    | none => simpa using hall
    | some ow =>
      cases ow with
      | none => simpa using hall
      | some wb =>
        simp only []
        apply processFiles_titles_le31 fs sn rest (i + 1)
        · simp only []
          apply addAll_titles_le31 sn i p wb.sheets.length wb.sheets st.outSheets st.sheetIndex hall
          rw [totalSheets, hl] at hb
          simp only [] at hb
          omega
        · simp only []
          rcases addAll_outSheets sn i p wb.sheets.length wb.sheets st.outSheets st.sheetIndex with
            ⟨a1, h1, hlen⟩
          rw [h1]
          simp only [List.length_append]
          rw [totalSheets, hl] at hb
          simp only [] at hb
          omega

theorem processFiles_title_shape (fs : Fs) (sn : Option (List Str)) :
    ∀ (ps : List Str) (i : Nat) (st : ConsState),
      ∀ t ∈ titlesOf (processFiles fs sn i ps st).1.outSheets,
        t ∈ titlesOf st.outSheets ∨
        ∃ j p wb s, p ∈ ps ∧ lookupFs fs p = some (some wb) ∧ s ∈ wb.sheets ∧
          (t = _sanitize_sheet_name (targetNameFor sn j p wb.sheets.length s.title) ∨
           ∃ c, 1 ≤ c ∧
             t = mkCand (_sanitize_sheet_name (targetNameFor sn j p wb.sheets.length s.title)) c)
  | [], _, st, t, ht => by
    left
    simpa [processFiles] using ht
  | p :: rest, i, st, t, ht => by
    rw [processFiles] at ht
    cases hl : lookupFs fs p with
    | none =>
      rw [hl] at ht
      left
      simpa using ht
    | some ow =>
      cases ow with
      | none =>
        rw [hl] at ht
        left
        simpa using ht
      | some wb =>
        rw [hl] at ht
        simp only [] at ht
        rcases processFiles_title_shape fs sn rest (i + 1) _ t ht with hin | ⟨j, q, wb2, s, hq, hlq, hs, hsh⟩
        · simp only [] at hin
          rcases addAll_title_shape sn i p wb.sheets.length wb.sheets st.outSheets st.sheetIndex
              t hin with h0 | ⟨s, hs, hsh⟩
          · exact Or.inl h0
          · right
            exact ⟨i, p, wb, s, by simp, hl, hs, hsh⟩
        · right
          exact ⟨j, q, wb2, s, by simp [hq], hlq, hs, hsh⟩

/-! ### `validate_excel_file` (file_manager.py lines 194-231) -/

/-- A file on disk as seen by the validator: its `os.stat` size and the
outcome of opening and reading it (`none` models a read error). -/
structure DiskFile where
  size : Nat
  readBytes : Option (List Nat)
deriving DecidableEq

abbrev Disk := List (Str × DiskFile)

def lookupDisk (d : Disk) (p : Str) : Option DiskFile :=
  match d with
  | [] => none
  | (q, f) :: rest => if q = p then some f else lookupDisk rest p

/-- Python `str.lower` (ASCII case folding suffices for the extensions). -/
def lowerStr (l : Str) : Str := l.map Char.toLower

/-- `filepath.lower().endswith(('.xlsx', '.xls'))`. -/
def hasExcelExt (p : Str) : Bool :=
  ".xlsx".toList.isSuffixOf (lowerStr p) || ".xls".toList.isSuffixOf (lowerStr p)

/-- `validate_excel_file` (file_manager.py lines 194-231): existence, size
≥ 1000, recognized extension, and ZIP magic bytes `PK`; read errors yield
`false`. -/
def validate_excel_file (disk : Disk) (filepath : Str) : Bool :=
  match lookupDisk disk filepath with
  | none => false
  | some f =>
    if f.size < 1000 then false
    else if !hasExcelExt filepath then false
    else
      match f.readBytes with
      | none => false
      | some bs =>
        let header := bs.take 4
        if header.take 2 ≠ [80, 75] then false else true

/-! ### Directory lifecycle (`list_downloads`, `cleanup_old_files`,
file_manager.py lines 148-192) -/

/-- A directory entry with the failure modes relevant to listing/cleanup:
`infoFails` models `os.stat` raising, `removeFails` models `os.remove`
raising. -/
structure DirEntry where
  name : Str
  isFile : Bool
  mtime : Int
  infoFails : Bool
  removeFails : Bool
deriving DecidableEq

/-- The slice of `get_file_info` relevant here: name and modification time. -/
structure FileRec where
  fname : Str
  mtime : Int
deriving DecidableEq

/-- The collection loop of `list_downloads`: regular files whose metadata is
readable; a failing `get_file_info` is caught, logged and skipped. -/
def collectInfos : List DirEntry → List FileRec
  | [] => []
  | e :: rest =>
    if e.isFile ∧ ¬e.infoFails then ⟨e.name, e.mtime⟩ :: collectInfos rest
    else collectInfos rest

/-- Stable insertion for descending modification time (Python
`sorted(..., reverse=True)` keeps insertion order on ties). -/
def insertDesc (x : FileRec) : List FileRec → List FileRec
  | [] => [x]
  | y :: ys => if y.mtime ≤ x.mtime then x :: y :: ys else y :: insertDesc x ys

def sortDesc : List FileRec → List FileRec
  | [] => []
  | x :: xs => insertDesc x (sortDesc xs)

/-- `list_downloads` (file_manager.py lines 148-166). -/
def list_downloads (entries : List DirEntry) : List FileRec :=
  sortDesc (collectInfos entries)

/-- Outcome of `cleanup_old_files`: a returned count, or an uncaught
exception naming the offending file. -/
inductive CleanupOutcome
  | done (deleted : Nat)
  | failed (name : Str)
deriving DecidableEq

/-- `cleanup_old_files` (file_manager.py lines 168-192): no per-file
exception handling — a failing `os.stat` or `os.remove` propagates and
aborts the batch. -/
def cleanup_old_files (cutoff : Int) : List DirEntry → Nat → CleanupOutcome
  | [], deleted => CleanupOutcome.done deleted
  | e :: rest, deleted =>
    if e.isFile then
      if e.infoFails then CleanupOutcome.failed e.name
      else if e.mtime < cutoff then
        if e.removeFails then CleanupOutcome.failed e.name
        else cleanup_old_files cutoff rest (deleted + 1)
      else cleanup_old_files cutoff rest deleted
    else cleanup_old_files cutoff rest deleted

/-! ### `rename_download` (file_manager.py lines 98-126) and persisted
output files -/

def lookupBytes (s : List (Str × List Nat)) (p : Str) : Option (List Nat) :=
  match s with
  | [] => none
  | (q, c) :: rest => if q = p then some c else lookupBytes rest p

def eraseStore (s : List (Str × List Nat)) (p : Str) : List (Str × List Nat) :=
  s.filter (fun q => decide (q.1 ≠ p))

/-- Observable behaviour of `rename_download`: the returned path (`none`
models the `FileNotFoundError`), the resulting directory contents, and
whether the "File already exists, will overwrite" warning was logged. -/
structure RenameResult where
  outcome : Option Str
  store : List (Str × List Nat)
  loggedOverwrite : Bool
deriving DecidableEq

/-- `rename_download` (file_manager.py lines 98-126): missing source raises;
an existing target is logged and removed, then the file is moved. -/
def rename_download (store : List (Str × List Nat)) (download_dir : Str)
    (original_path : Str) (new_filename : Str) : RenameResult :=
  match lookupBytes store original_path with
  | none => { outcome := none, store := store, loggedOverwrite := false }
  | some content =>
    let new_path := outputPathOf download_dir new_filename
    let hit := (lookupBytes store new_path).isSome
    let store1 := if hit then eraseStore store new_path else store
    { outcome := some new_path,
      store := (new_path, content) :: eraseStore store1 original_path,
      loggedOverwrite := hit }

def lookupWB (s : List (Str × Workbook)) (p : Str) : Option Workbook :=
  match s with
  | [] => none
  | (q, w) :: rest => if q = p then some w else lookupWB rest p

/-- Effect of `output_wb.save(output_path)` on the download directory:
the OS write replaces whatever was at the path, with no existence check. -/
def applyWrite (store : List (Str × Workbook)) (r : ConsResult) : List (Str × Workbook) :=
  match r.written with
  | none => store
  | some (p, wb) => (p, wb) :: store.filter (fun q => decide (q.1 ≠ p))

/-! ### Support lemmas for listing and cleanup -/

theorem mem_insertDesc (x y : FileRec) :
    ∀ l : List FileRec, x ∈ insertDesc y l ↔ x = y ∨ x ∈ l
  | [] => by simp [insertDesc]
  | z :: zs => by
    rw [insertDesc]
    by_cases h : z.mtime ≤ y.mtime
    · rw [if_pos h]
      simp
    · rw [if_neg h]
      rw [List.mem_cons, mem_insertDesc x y zs, List.mem_cons]
      tauto

theorem mem_sortDesc (x : FileRec) : ∀ l : List FileRec, x ∈ sortDesc l ↔ x ∈ l
  | [] => by simp [sortDesc]
  | y :: ys => by
    rw [sortDesc, mem_insertDesc x y (sortDesc ys), mem_sortDesc x ys, List.mem_cons]

theorem mem_collectInfos (x : FileRec) :
    ∀ entries : List DirEntry, x ∈ collectInfos entries ↔
      ∃ e ∈ entries, e.isFile = true ∧ e.infoFails = false ∧
        x = ⟨e.name, e.mtime⟩
  | [] => by simp [collectInfos]
  | e :: rest => by
    rw [collectInfos]
    by_cases h : e.isFile ∧ ¬e.infoFails
    · rw [if_pos h]
      rw [List.mem_cons, mem_collectInfos x rest]
      constructor
      · rintro (rfl | ⟨d, hd, h1, h2, h3⟩)
        · exact ⟨e, by simp, by simpa using h.1, by simpa using h.2, rfl⟩
        · exact ⟨d, by simp [hd], h1, h2, h3⟩
      · rintro ⟨d, hd, h1, h2, h3⟩
        rcases List.mem_cons.mp hd with rfl | hd
        · exact Or.inl h3
        · exact Or.inr ⟨d, hd, h1, h2, h3⟩
    · rw [if_neg h]
      rw [mem_collectInfos x rest]
      constructor
      · rintro ⟨d, hd, h1, h2, h3⟩
        exact ⟨d, by simp [hd], h1, h2, h3⟩
      · rintro ⟨d, hd, h1, h2, h3⟩
        rcases List.mem_cons.mp hd with rfl | hd
        · exact absurd ⟨h1, by simp [h2]⟩ h
        · exact ⟨d, hd, h1, h2, h3⟩

theorem cleanup_done_of_safe (cutoff : Int) :
    ∀ (entries : List DirEntry) (d : Nat),
      (∀ e ∈ entries, e.isFile = true →
        e.infoFails = false ∧ (e.mtime < cutoff → e.removeFails = false)) →
      cleanup_old_files cutoff entries d =
        CleanupOutcome.done
          (d + (entries.filter (fun e => e.isFile && decide (e.mtime < cutoff))).length)
  | [], d, _ => by simp [cleanup_old_files]
  | e :: rest, d, h => by
    rw [cleanup_old_files]
    have hrec := cleanup_done_of_safe cutoff rest
    by_cases hf : e.isFile = true
    · rw [if_pos hf]
      have he := h e (by simp) hf
      rw [if_neg (by simp [he.1])]
      by_cases hm : e.mtime < cutoff
      · rw [if_pos hm, if_neg (by simp [he.2 hm])]
        rw [hrec (d + 1) (fun x hx => h x (by simp [hx]))]
        simp only [List.filter_cons, hf, hm]
        simp
        omega
      · rw [if_neg hm]
        rw [hrec d (fun x hx => h x (by simp [hx]))]
        simp only [List.filter_cons, hf]
        simp [hm]
    · rw [if_neg hf]
      rw [hrec d (fun x hx => h x (by simp [hx]))]
      simp only [List.filter_cons]
      simp [hf]

theorem cleanup_aborts (cutoff : Int) :
    ∀ (l1 : List DirEntry) (e : DirEntry) (l2 : List DirEntry) (d : Nat),
      (∀ x ∈ l1, x.isFile = true →
        x.infoFails = false ∧ (x.mtime < cutoff → x.removeFails = false)) →
      e.isFile = true →
      (e.infoFails = true ∨ (e.mtime < cutoff ∧ e.removeFails = true)) →
      cleanup_old_files cutoff (l1 ++ e :: l2) d = CleanupOutcome.failed e.name
  | [], e, l2, d, _, hf, hfail => by
    rw [List.nil_append, cleanup_old_files, if_pos hf]
    by_cases hi : e.infoFails = true
    · rw [if_pos hi]
    · rcases hfail with h | ⟨h1, h2⟩
      · exact absurd h hi
      · rw [if_neg hi, if_pos h1, if_pos h2]
  | x :: l1, e, l2, d, h, hf, hfail => by
    rw [List.cons_append, cleanup_old_files]
    by_cases hxf : x.isFile = true
    · rw [if_pos hxf]
      have hx := h x (by simp) hxf
      rw [if_neg (by simp [hx.1])]
      by_cases hm : x.mtime < cutoff
      · rw [if_pos hm, if_neg (by simp [hx.2 hm])]
        exact cleanup_aborts cutoff l1 e l2 (d + 1) (fun y hy => h y (by simp [hy])) hf hfail
      · rw [if_neg hm]
        exact cleanup_aborts cutoff l1 e l2 d (fun y hy => h y (by simp [hy])) hf hfail
    · rw [if_neg hxf]
      exact cleanup_aborts cutoff l1 e l2 d (fun y hy => h y (by simp [hy])) hf hfail

/-! ### Unfolding and inversion lemmas for `consolidate_excel_files` -/

theorem firstMissing_none (fs : Fs) :
    ∀ ps : List Str, (∀ q ∈ ps, lookupFs fs q ≠ none) → firstMissing fs ps = none
  | [], _ => rfl
  | p :: rest, h => by
    rw [firstMissing, if_neg (by simpa using h p (by simp))]
    exact firstMissing_none fs rest (fun q hq => h q (by simp [hq]))

theorem firstMissing_first (fs : Fs) :
    ∀ (l1 : List Str) (p : Str) (l2 : List Str),
      (∀ q ∈ l1, lookupFs fs q ≠ none) → lookupFs fs p = none →
      firstMissing fs (l1 ++ p :: l2) = some p
  | [], p, l2, _, hp => by rw [List.nil_append, firstMissing, if_pos hp]
  | q :: l1, p, l2, h, hp => by
    rw [List.cons_append, firstMissing, if_neg (by simpa using h q (by simp))]
    exact firstMissing_first fs l1 p l2 (fun r hr => h r (by simp [hr])) hp

theorem consolidate_eq_ok (fs : Fs) (dir : Str) (ps : List Str) (out : Str)
    (sn : Option (List Str)) (st : ConsState) (hne : ps ≠ [])
    (hfm : firstMissing fs ps = none)
    (hpf : processFiles fs sn 0 ps consInit = (st, none)) :
    consolidate_excel_files fs dir ps out sn =
      { result := ConsOutcome.ok (outputPathOf dir out),
        written := some (outputPathOf dir out, ⟨finalOf st⟩),
        sheetCount := st.sheetIndex,
        loads := st.loads, opened := st.opened, closed := st.closed,
        outputOpened := true, outputClosed := true } := by
  unfold consolidate_excel_files
  rw [if_neg hne, hfm, hpf]

theorem consolidate_eq_err (fs : Fs) (dir : Str) (ps : List Str) (out : Str)
    (sn : Option (List Str)) (st : ConsState) (e : ConsErr) (hne : ps ≠ [])
    (hfm : firstMissing fs ps = none)
    (hpf : processFiles fs sn 0 ps consInit = (st, some e)) :
    consolidate_excel_files fs dir ps out sn =
      { result := ConsOutcome.err e, written := none, sheetCount := st.sheetIndex,
        loads := st.loads, opened := st.opened, closed := st.closed,
        outputOpened := true, outputClosed := false } := by
  unfold consolidate_excel_files
  rw [if_neg hne, hfm, hpf]

/-- Inversion: a persisted output only arises from the success branch. -/
theorem consolidate_written_inv (fs : Fs) (dir : Str) (ps : List Str) (out : Str)
    (sn : Option (List Str)) (p : Str) (wb : Workbook)
    (h : (consolidate_excel_files fs dir ps out sn).written = some (p, wb)) :
    ∃ st, processFiles fs sn 0 ps consInit = (st, none) ∧ ps ≠ [] ∧
      firstMissing fs ps = none ∧ p = outputPathOf dir out ∧ wb = ⟨finalOf st⟩ ∧
      (consolidate_excel_files fs dir ps out sn).sheetCount = st.sheetIndex ∧
      (consolidate_excel_files fs dir ps out sn).result = ConsOutcome.ok p := by
  by_cases hne : ps = []
  · rw [hne] at h
    simp [consolidate_excel_files] at h
  · cases hfm : firstMissing fs ps with
    | some q =>
      unfold consolidate_excel_files at h
      rw [if_neg hne, hfm] at h
      simp at h
    | none =>
      rcases hpf : processFiles fs sn 0 ps consInit with ⟨st, oe⟩
      cases oe with
      | some e =>
        rw [consolidate_eq_err fs dir ps out sn st e hne hfm hpf] at h
        simp at h
      | none =>
        rw [consolidate_eq_ok fs dir ps out sn st hne hfm hpf] at h ⊢
        simp only [Option.some.injEq, Prod.mk.injEq] at h
        exact ⟨st, rfl, hne, rfl, h.1.symm, h.2.symm, rfl, by rw [h.1]⟩

/-- Inversion: a successful return only arises from the success branch. -/
theorem consolidate_ok_inv (fs : Fs) (dir : Str) (ps : List Str) (out : Str)
    (sn : Option (List Str)) (p : Str)
    (h : (consolidate_excel_files fs dir ps out sn).result = ConsOutcome.ok p) :
    ∃ st, processFiles fs sn 0 ps consInit = (st, none) ∧ ps ≠ [] ∧
      firstMissing fs ps = none ∧ p = outputPathOf dir out ∧
      (consolidate_excel_files fs dir ps out sn).written = some (p, ⟨finalOf st⟩) := by
  by_cases hne : ps = []
  · rw [hne] at h
    simp [consolidate_excel_files] at h
  · cases hfm : firstMissing fs ps with
    | some q =>
      unfold consolidate_excel_files at h
      rw [if_neg hne, hfm] at h
      simp at h
    | none =>
      rcases hpf : processFiles fs sn 0 ps consInit with ⟨st, oe⟩
      cases oe with
      | some e =>
        rw [consolidate_eq_err fs dir ps out sn st e hne hfm hpf] at h
        simp at h
      | none =>
        rw [consolidate_eq_ok fs dir ps out sn st hne hfm hpf] at h ⊢
        simp only [ConsOutcome.ok.injEq] at h
        exact ⟨st, rfl, hne, rfl, h.symm, by rw [h]⟩

/-- The placeholder stays at the head of the output sheet list throughout. -/
theorem processFiles_init_shape (fs : Fs) (sn : Option (List Str)) (ps : List Str) :
    ∃ added, (processFiles fs sn 0 ps consInit).1.outSheets = placeholderSheet :: added := by
  rcases processFiles_outSheets_shape fs sn ps 0 consInit with ⟨added, h⟩
  exact ⟨added, by simpa [consInit] using h⟩

theorem totalSheets_cons_parse (fs : Fs) (p : Str) (rest : List Str) (wb : Workbook)
    (h : lookupFs fs p = some (some wb)) :
    totalSheets fs (p :: rest) = wb.sheets.length + totalSheets fs rest := by
  rw [totalSheets, h]

/-- When every source parses, the final `sheet_index` counts the sheets of
all sources. -/
theorem processFiles_sheetIndex (fs : Fs) (sn : Option (List Str)) :
    ∀ (ps : List Str) (i : Nat) (st : ConsState),
      (∀ q ∈ ps, ∃ wb, lookupFs fs q = some (some wb)) →
      (processFiles fs sn i ps st).1.sheetIndex = st.sheetIndex + totalSheets fs ps
  | [], _, st, _ => by simp [processFiles, totalSheets]
  | p :: rest, i, st, h => by
    rw [processFiles]
    rcases h p (by simp) with ⟨wb, hwb⟩
    rw [hwb]
    simp only []
    rw [processFiles_sheetIndex fs sn rest (i + 1) _ (fun q hq => h q (by simp [hq]))]
    simp only []
    rw [addAll_sheetIndex, totalSheets_cons_parse fs p rest wb hwb]
    omega

theorem finalOf_sublist (st : ConsState) : (finalOf st).Sublist st.outSheets := by
  unfold finalOf
  split
  · exact List.drop_sublist _ _
  · exact List.Sublist.refl _

/-! ## Claim theorems -/

/-- C6 (counterexample): the claim asserts that for some workbook state the
suffix-search loop of `_make_unique_sheet_name` runs forever.  This is false:
no input makes the loop run out of every finite fuel, because successive
candidates are pairwise distinct, so a free one is found by pigeonhole. -/
theorem c6_counterexample :
    ¬ ∃ (existing : List Str) (name : Str),
        ∀ fuel, uniqueLoop existing name 1 fuel = none := by
  rintro ⟨e, n, h⟩
  rcases uniqueLoop_fuel_sufficient e n with ⟨c, _, _, hl, _⟩
  rw [h (e.length + 1)] at hl
  exact Option.noConfusion hl

/-- C6 (amended): the suffix-search loop has no explicit iteration cap, but
it terminates on every finite workbook state: `existing.length + 1`
iterations always return a name. -/
theorem c6_amended_terminates (existing : List Str) (name : Str) :
    ∃ r, uniqueLoop existing name 1 (existing.length + 1) = some r := by
  rcases uniqueLoop_fuel_sufficient existing name with ⟨c, _, _, hl, _⟩
  exact ⟨_, hl⟩

/-- C9: both sanitizers are idempotent — one application reaches a fixed
point of strip/replace/collapse/truncate (filenames) and of
replace/truncate (sheet names). -/
theorem c9_sanitizers_idempotent (x : Str) :
    _sanitize_filename (_sanitize_filename x) = _sanitize_filename x ∧
      _sanitize_sheet_name (_sanitize_sheet_name x) = _sanitize_sheet_name x :=
  ⟨sanitize_filename_idem x, sanitize_sheet_name_idem x⟩

/-- C7: `validate_excel_file` returns true iff the path exists, the size is
at least 1000 bytes, the lower-cased path ends in `.xlsx` or `.xls`, and the
first two bytes read are `PK`; missing files and read errors give `false`;
and the four concrete spec cases evaluate as stated. -/
theorem c7_validate_spec :
    (∀ (disk : Disk) (p : Str), validate_excel_file disk p = true ↔
      ∃ f, lookupDisk disk p = some f ∧ 1000 ≤ f.size ∧ hasExcelExt p = true ∧
        ∃ bs, f.readBytes = some bs ∧ bs.take 2 = [80, 75]) ∧
    (∀ p : Str, validate_excel_file [] p = false) ∧
    validate_excel_file [("a.xlsx".toList, ⟨500, some [80, 75, 3, 4]⟩)] "a.xlsx".toList = false ∧
    validate_excel_file [("a.txt".toList, ⟨2000, some [80, 75, 3, 4]⟩)] "a.txt".toList = false ∧
    validate_excel_file [("a.xlsx".toList, ⟨2000, some [77, 90, 3, 4]⟩)] "a.xlsx".toList = false ∧
    validate_excel_file [("a.xlsx".toList, ⟨2000, some [80, 75, 3, 4]⟩)] "a.xlsx".toList = true := by
  refine ⟨?_, fun p => rfl, by decide, by decide, by decide, by decide⟩
  intro disk p
  constructor
  · intro hv
    unfold validate_excel_file at hv
    split at hv
    · exact absurd hv (by simp)
    · rename_i f hf
      split at hv
      · exact absurd hv (by simp)
      · rename_i hs
        split at hv
        · exact absurd hv (by simp)
        · rename_i hext
          split at hv
          · exact absurd hv (by simp)
          · rename_i bs hbs
            simp only [ne_eq] at hv
            split at hv
            · exact absurd hv (by simp)
            · rename_i hpk
              rw [not_not, List.take_take] at hpk
              simp only [show min 2 4 = 2 from rfl] at hpk
              exact ⟨f, hf, by omega, by simpa using hext, bs, hbs, hpk⟩
  · rintro ⟨f, hf, h1000, hext, bs, hbs, hpk⟩
    unfold validate_excel_file
    split
    · rename_i heq
      rw [hf] at heq
      exact Option.noConfusion heq
    · rename_i g hg
      rw [hf] at hg
      have hfg : f = g := by injection hg
      subst hfg
      rw [if_neg (by omega)]
      rw [if_neg (by simp [hext])]
      split
      · rename_i hb
        rw [hbs] at hb
        exact Option.noConfusion hb
      · rename_i bs2 hb
        rw [hbs] at hb
        have hbb : bs = bs2 := by injection hb
        subst hbb
        simp only [ne_eq]
        split
        · rename_i hne
          rw [List.take_take] at hne
          simp only [show min 2 4 = 2 from rfl] at hne
          exact absurd hpk hne
        · rfl

/-- C8 (counterexample): during cleanup, a single file whose metadata read
fails aborts the whole batch with the error — the remaining (deletable) file
is not processed and no count is returned, contrary to the claim. -/
theorem c8_counterexample :
    cleanup_old_files 0
      [⟨"bad".toList, true, -100, true, false⟩,
       ⟨"good".toList, true, -100, false, false⟩] 0 =
      CleanupOutcome.failed "bad".toList := by
  decide

/-- C8 (amended): failure isolation holds for `list_downloads` (an entry
whose metadata read fails is skipped, all other regular files are listed),
but not for `cleanup_old_files`: with no failing file cleanup returns the
count of old files, while a single failing `os.stat` or `os.remove` aborts
the batch with that file's error. -/
theorem c8_amended_isolation :
    (∀ (entries : List DirEntry) (x : FileRec),
      x ∈ list_downloads entries ↔ ∃ e ∈ entries, e.isFile = true ∧ e.infoFails = false ∧
        x = ⟨e.name, e.mtime⟩) ∧
    (∀ (cutoff : Int) (entries : List DirEntry),
      (∀ e ∈ entries, e.isFile = true →
        e.infoFails = false ∧ (e.mtime < cutoff → e.removeFails = false)) →
      cleanup_old_files cutoff entries 0 = CleanupOutcome.done
        ((entries.filter (fun e => e.isFile && decide (e.mtime < cutoff))).length)) ∧
    (∀ (cutoff : Int) (l1 : List DirEntry) (e : DirEntry) (l2 : List DirEntry),
      (∀ x ∈ l1, x.isFile = true →
        x.infoFails = false ∧ (x.mtime < cutoff → x.removeFails = false)) →
      e.isFile = true → (e.infoFails = true ∨ (e.mtime < cutoff ∧ e.removeFails = true)) →
      cleanup_old_files cutoff (l1 ++ e :: l2) 0 = CleanupOutcome.failed e.name) := by
  refine ⟨?_, ?_, ?_⟩
  · intro entries x
    unfold list_downloads
    rw [mem_sortDesc, mem_collectInfos]
  · intro cutoff entries h
    have := cleanup_done_of_safe cutoff entries 0 h
    simpa using this
  · intro cutoff l1 e l2 h hf hfail
    exact cleanup_aborts cutoff l1 e l2 0 h hf hfail

/-- C8 (witness): concrete instances of the amended statement. -/
theorem c8_witness :
    (⟨"g".toList, (-5 : Int)⟩ : FileRec) ∈
        list_downloads [⟨"g".toList, true, -5, false, false⟩] ∧
    cleanup_old_files 0 [⟨"g".toList, true, -5, false, false⟩] 0 = CleanupOutcome.done 1 ∧
    cleanup_old_files 0 [⟨"b".toList, true, -5, true, false⟩] 0 =
      CleanupOutcome.failed "b".toList := by
  refine ⟨?_, ?_, ?_⟩
  · exact (c8_amended_isolation.1 _ _).mpr
      ⟨⟨"g".toList, true, -5, false, false⟩, by simp, rfl, rfl, rfl⟩
  · have := c8_amended_isolation.2.1 0 [⟨"g".toList, true, -5, false, false⟩] (by decide)
    simpa using this
  · have := c8_amended_isolation.2.2 0 [] ⟨"b".toList, true, -5, true, false⟩ []
      (by simp) rfl (Or.inl rfl)
    simpa using this

/-- C3: an empty source list fails with `EmptySourceList` and a missing
source fails with `MissingSourceFile` naming the first missing path, both
before any document I/O (no load attempts, output workbook not created);
a parse failure fails the whole job with `CorruptWorkbook`; and in all three
failure cases nothing is written to disk. -/
theorem c3_precondition_and_corrupt :
    (∀ (fs : Fs) (dir out : Str) (sn : Option (List Str)),
      consolidate_excel_files fs dir [] out sn =
        { result := ConsOutcome.err ConsErr.emptySourceList, written := none, sheetCount := 0,
          loads := [], opened := [], closed := [], outputOpened := false,
          outputClosed := false }) ∧
    (∀ (fs : Fs) (dir out : Str) (sn : Option (List Str)) (l1 : List Str) (p : Str)
        (l2 : List Str),
      (∀ q ∈ l1, lookupFs fs q ≠ none) → lookupFs fs p = none →
      consolidate_excel_files fs dir (l1 ++ p :: l2) out sn =
        { result := ConsOutcome.err (ConsErr.missingSourceFile p), written := none,
          sheetCount := 0, loads := [], opened := [], closed := [], outputOpened := false,
          outputClosed := false }) ∧
    (∀ (fs : Fs) (dir out : Str) (sn : Option (List Str)) (l1 : List Str) (p : Str)
        (l2 : List Str),
      (∀ q ∈ l1, ∃ wb, lookupFs fs q = some (some wb)) → lookupFs fs p = some none →
      (∀ q ∈ l2, lookupFs fs q ≠ none) →
      (consolidate_excel_files fs dir (l1 ++ p :: l2) out sn).result =
          ConsOutcome.err (ConsErr.corruptWorkbook p) ∧
        (consolidate_excel_files fs dir (l1 ++ p :: l2) out sn).written = none) := by
  refine ⟨fun fs dir out sn => rfl, ?_, ?_⟩
  · intro fs dir out sn l1 p l2 h1 h2
    unfold consolidate_excel_files
    rw [if_neg (by simp), firstMissing_first fs l1 p l2 h1 h2]
  · intro fs dir out sn l1 p l2 h1 h2 h3
    have hfm : firstMissing fs (l1 ++ p :: l2) = none := by
      apply firstMissing_none
      intro q hq
      rcases List.mem_append.mp hq with hq | hq
      · rcases h1 q hq with ⟨wb, hwb⟩
        simp [hwb]
      · rcases List.mem_cons.mp hq with rfl | hq
        · simp [h2]
        · exact h3 q hq
    rcases hpf : processFiles fs sn 0 (l1 ++ p :: l2) consInit with ⟨st, oe⟩
    have hcor := processFiles_corrupt fs sn l1 p l2 0 consInit h1 h2
    rw [hpf] at hcor
    simp only [] at hcor
    subst hcor
    rw [consolidate_eq_err fs dir (l1 ++ p :: l2) out sn st
      (ConsErr.corruptWorkbook p) (by simp) hfm hpf]
    exact ⟨rfl, rfl⟩

/-- C3 (witness): the three failure modes at concrete inputs. -/
theorem c3_witness :
    consolidate_excel_files [] "d".toList [] "o".toList none =
      { result := ConsOutcome.err ConsErr.emptySourceList, written := none, sheetCount := 0,
        loads := [], opened := [], closed := [], outputOpened := false,
        outputClosed := false } ∧
    consolidate_excel_files [] "d".toList ["a".toList] "o".toList none =
      { result := ConsOutcome.err (ConsErr.missingSourceFile "a".toList), written := none,
        sheetCount := 0, loads := [], opened := [], closed := [], outputOpened := false,
        outputClosed := false } ∧
    (consolidate_excel_files [("a".toList, none)] "d".toList ["a".toList] "o".toList
        none).result = ConsOutcome.err (ConsErr.corruptWorkbook "a".toList) ∧
    (consolidate_excel_files [("a".toList, none)] "d".toList ["a".toList] "o".toList
        none).written = none := by
  refine ⟨c3_precondition_and_corrupt.1 [] "d".toList "o".toList none, ?_, ?_⟩
  · have := c3_precondition_and_corrupt.2.1 [] "d".toList "o".toList none [] "a".toList []
      (by simp) rfl
    simpa using this
  · have := c3_precondition_and_corrupt.2.2 [("a".toList, none)] "d".toList "o".toList none
      [] "a".toList [] (by simp) (by decide) (by simp)
    simpa using this

/-- C5 (counterexample): when the second source fails to parse, the job
aborts with `CorruptWorkbook` and the output document handle, although
opened, is never closed — contradicting "closed on every execution path". -/
theorem c5_counterexample :
    (consolidate_excel_files [("a".toList, some ⟨[]⟩), ("b".toList, none)] "d".toList
        ["a".toList, "b".toList] "o".toList none).result =
      ConsOutcome.err (ConsErr.corruptWorkbook "b".toList) ∧
    (consolidate_excel_files [("a".toList, some ⟨[]⟩), ("b".toList, none)] "d".toList
        ["a".toList, "b".toList] "o".toList none).outputOpened = true ∧
    (consolidate_excel_files [("a".toList, some ⟨[]⟩), ("b".toList, none)] "d".toList
        ["a".toList, "b".toList] "o".toList none).outputClosed = false := by
  decide

/-- C5 (amended): every source workbook handle opened during a consolidation
call is closed again on every path, and the output workbook handle is closed
on the success path; but on every failing path the output handle (when it was
opened at all) is left unclosed. -/
theorem c5_amended_handles (fs : Fs) (dir : Str) (ps : List Str) (out : Str)
    (sn : Option (List Str)) :
    ((consolidate_excel_files fs dir ps out sn).opened =
      (consolidate_excel_files fs dir ps out sn).closed) ∧
    (∀ p, (consolidate_excel_files fs dir ps out sn).result = ConsOutcome.ok p →
      (consolidate_excel_files fs dir ps out sn).outputClosed = true) ∧
    (∀ e, (consolidate_excel_files fs dir ps out sn).result = ConsOutcome.err e →
      (consolidate_excel_files fs dir ps out sn).outputClosed = false) := by
  by_cases hne : ps = []
  · subst hne
    exact ⟨rfl, fun p hp => by simp [consolidate_excel_files] at hp, fun e he => rfl⟩
  · cases hfm : firstMissing fs ps with
    | some q =>
      unfold consolidate_excel_files
      rw [if_neg hne, hfm]
      exact ⟨rfl, fun p hp => by simp at hp, fun e he => rfl⟩
    | none =>
      rcases hpf : processFiles fs sn 0 ps consInit with ⟨st, oe⟩
      have hh : st.opened = st.closed := by
        have := processFiles_handles fs sn ps 0 consInit rfl
        rw [hpf] at this
        exact this
      cases oe with
      | some e =>
        rw [consolidate_eq_err fs dir ps out sn st e hne hfm hpf]
        exact ⟨hh, fun p hp => by simp at hp, fun e2 he2 => rfl⟩
      | none =>
        rw [consolidate_eq_ok fs dir ps out sn st hne hfm hpf]
        exact ⟨hh, fun p hp => rfl, fun e2 he2 => by simp at he2⟩

/-- C5 (amended, witness): on a concrete successful job all handles are
closed. -/
theorem c5_witness :
    (consolidate_excel_files [("a".toList, some ⟨[]⟩)] "d".toList ["a".toList] "o".toList
        none).outputClosed = true :=
  (c5_amended_handles [("a".toList, some ⟨[]⟩)] "d".toList ["a".toList] "o".toList
      none).2.1 (outputPathOf "d".toList "o".toList) (by decide)

/-- C10: a completed consolidation persists its output with no existence
check — a pre-existing file at the output path is silently replaced
(last-writer-wins, no error) — whereas `rename_download` logs the overwrite
of an existing target. -/
theorem c10_silent_overwrite :
    (∀ (fs : Fs) (dir : Str) (ps : List Str) (out : Str) (sn : Option (List Str))
        (store : List (Str × Workbook)) (p : Str) (old : Workbook),
      (consolidate_excel_files fs dir ps out sn).result = ConsOutcome.ok p →
      lookupWB store p = some old →
      ∃ wb, (consolidate_excel_files fs dir ps out sn).written = some (p, wb) ∧
        lookupWB (applyWrite store (consolidate_excel_files fs dir ps out sn)) p = some wb) ∧
    (∀ (store : List (Str × List Nat)) (dir orig fn : Str) (c : List Nat),
      lookupBytes store orig = some c →
      (lookupBytes store (outputPathOf dir fn)).isSome = true →
      (rename_download store dir orig fn).loggedOverwrite = true) := by
  constructor
  · intro fs dir ps out sn store p old hok hold
    rcases consolidate_ok_inv fs dir ps out sn p hok with ⟨st, hpf, hne, hfm, hp, hw⟩
    refine ⟨⟨finalOf st⟩, hw, ?_⟩
    unfold applyWrite
    rw [hw]
    simp [lookupWB]
  · intro store dir orig fn c h1 h2
    unfold rename_download
    rw [h1]
    simp only []
    exact h2

/-- C10 (witness): a concrete job whose output path is occupied completes
and the store afterwards holds the new workbook at that path. -/
theorem c10_witness :
    ∃ wb, (consolidate_excel_files [("a".toList, some ⟨[]⟩)] "d".toList ["a".toList]
        "o".toList none).written = some (outputPathOf "d".toList "o".toList, wb) ∧
      lookupWB (applyWrite [(outputPathOf "d".toList "o".toList, (⟨[]⟩ : Workbook))]
          (consolidate_excel_files [("a".toList, some ⟨[]⟩)] "d".toList ["a".toList]
            "o".toList none)) (outputPathOf "d".toList "o".toList) = some wb :=
  c10_silent_overwrite.1 [("a".toList, some ⟨[]⟩)] "d".toList ["a".toList] "o".toList none
    [(outputPathOf "d".toList "o".toList, (⟨[]⟩ : Workbook))]
    (outputPathOf "d".toList "o".toList) ⟨[]⟩ (by decide) (by decide)

/-- C4 (counterexample): a job whose single source parses to a workbook with
zero worksheets copies zero sheets, yet succeeds and persists an output
containing only the untouched placeholder — the job does not fail. -/
theorem c4_counterexample :
    (consolidate_excel_files [("a".toList, some ⟨[]⟩)] "e".toList ["a".toList] "p".toList
        none).result = ConsOutcome.ok (outputPathOf "e".toList "p".toList) ∧
    (consolidate_excel_files [("a".toList, some ⟨[]⟩)] "e".toList ["a".toList] "p".toList
        none).sheetCount = 0 ∧
    (consolidate_excel_files [("a".toList, some ⟨[]⟩)] "e".toList ["a".toList] "p".toList
        none).written =
      some (outputPathOf "e".toList "p".toList, ⟨[placeholderSheet]⟩) := by
  decide

/-- C4 (amended): whenever an output is persisted, the placeholder has been
removed exactly when at least one sheet was copied (so its untouched title
never appears among the output's sheet names); with zero copied sheets the
placeholder is kept but the job succeeds, returning a document holding only
the placeholder. -/
theorem c4_amended_placeholder (fs : Fs) (dir : Str) (ps : List Str) (out : Str)
    (sn : Option (List Str)) (p : Str) (wb : Workbook)
    (h : (consolidate_excel_files fs dir ps out sn).written = some (p, wb)) :
    (0 < (consolidate_excel_files fs dir ps out sn).sheetCount →
      "Sheet".toList ∉ titlesOf wb.sheets) ∧
    ((consolidate_excel_files fs dir ps out sn).sheetCount = 0 →
      wb.sheets = [placeholderSheet] ∧
        (consolidate_excel_files fs dir ps out sn).result = ConsOutcome.ok p) := by
  rcases consolidate_written_inv fs dir ps out sn p wb h with
    ⟨st, hpf, hne, hfm, hp, hwb, hsc, hres⟩
  have hshape : ∃ added, st.outSheets = placeholderSheet :: added := by
    rcases processFiles_init_shape fs sn ps with ⟨added, hsh⟩
    rw [hpf] at hsh
    exact ⟨added, hsh⟩
  rcases hshape with ⟨added, hshape⟩
  constructor
  · intro hpos
    rw [hsc] at hpos
    have hnodup : (titlesOf st.outSheets).Nodup := by
      have hn := processFiles_nodup fs sn ps 0 consInit (by decide)
      rw [hpf] at hn
      exact hn
    have hcond : 0 < st.sheetIndex ∧ (titlesOf st.outSheets).head? = some "Sheet".toList := by
      refine ⟨hpos, ?_⟩
      rw [hshape]
      rfl
    rw [hwb]
    show "Sheet".toList ∉ titlesOf (finalOf st)
    unfold finalOf
    rw [if_pos hcond, hshape]
    have hn2 : (titlesOf (placeholderSheet :: added)).Nodup := by rw [← hshape]; exact hnodup
    have : titlesOf (placeholderSheet :: added) = "Sheet".toList :: titlesOf added := rfl
    rw [this] at hn2
    simpa using (List.nodup_cons.mp hn2).1
  · intro hzero
    rw [hsc] at hzero
    have hlen : st.outSheets.length = st.sheetIndex + 1 := by
      have hl := processFiles_len_inv fs sn ps 0 consInit rfl
      rw [hpf] at hl
      exact hl
    rw [hzero] at hlen
    have hadded : added = [] := by
      rw [hshape] at hlen
      simp at hlen
      exact hlen
    refine ⟨?_, hres⟩
    rw [hwb]
    show finalOf st = [placeholderSheet]
    unfold finalOf
    rw [if_neg (by rw [hzero]; simp), hshape, hadded]

/-- C4 (amended, witness): on a concrete one-sheet job the placeholder title
is absent from the persisted output. -/
theorem c4_witness :
    "Sheet".toList ∉
      titlesOf (Workbook.mk
        [⟨"a_T".toList, [], [], [], []⟩]).sheets :=
  (c4_amended_placeholder [("a".toList, some ⟨[⟨"T".toList, [], [], [], []⟩]⟩)] "e".toList
      ["a".toList] "p".toList none (outputPathOf "e".toList "p".toList)
      ⟨[⟨"a_T".toList, [], [], [], []⟩]⟩ rfl).1 (by decide)

set_option maxHeartbeats 1600000 in
/-- C1: consolidating a single valid source whose document has exactly one
sheet persists an output whose single corresponding sheet holds identical
cell values at identical (row, column) coordinates and an identical list of
merged ranges. -/
theorem c1_single_source_round_trip (fs : Fs) (dir p out : Str) (s : Sheet)
    (h : lookupFs fs p = some (some ⟨[s]⟩)) :
    ∃ sh, (consolidate_excel_files fs dir [p] out none).written =
        some (outputPathOf dir out, ⟨[sh]⟩) ∧
      (∀ r c, valueAt sh r c = valueAt s r c) ∧ sh.merged = s.merged := by
  set n1 := _sanitize_sheet_name (targetNameFor none 0 p 1 s.title) with hn1
  have hne_sheet : n1 ≠ "Sheet".toList := by
    rcases defaultCandidate_shape p s.title with ⟨a, ha, hc⟩
    rw [hn1]
    have ht : targetNameFor none 0 p 1 s.title = defaultCandidate p s.title := rfl
    rw [ht, hc]
    exact sanitized_candidate_ne_sheet a s.title ha
  have hmu : _make_unique_sheet_name ["Sheet".toList] n1 = n1 := by
    unfold _make_unique_sheet_name
    rw [if_neg (by simpa using hne_sheet)]
  have hpf : processFiles fs none 0 [p] consInit =
      ({ outSheets := [placeholderSheet, _copy_sheet_data s n1], sheetIndex := 1,
         loads := [p], opened := [p], closed := [p] }, none) := by
    rw [processFiles, h]
    simp only [processFiles, addAll, addSheet, consInit, List.length_singleton]
    rw [show titlesOf [placeholderSheet] = ["Sheet".toList] from rfl]
    rw [← hn1, hmu]
    rfl
  have hfm : firstMissing fs [p] = none := by
    rw [firstMissing, if_neg (by simp [h]), firstMissing]
  have hfin : finalOf ({ outSheets := [placeholderSheet, _copy_sheet_data s n1],
                         sheetIndex := 1, loads := [p], opened := [p],
                         closed := [p] } : ConsState) =
      [_copy_sheet_data s n1] := by
    unfold finalOf
    rw [if_pos ⟨Nat.zero_lt_one, rfl⟩]
    rfl
  refine ⟨_copy_sheet_data s n1, ?_, fun r c => valueAt_copy s n1 r c, rfl⟩
  rw [consolidate_eq_ok fs dir [p] out none _ (by simp) hfm hpf, hfin]

/-- C1 (witness): the round trip at a concrete one-sheet source with a value
and a merged range. -/
theorem c1_witness :
    ∃ sh, (consolidate_excel_files
        [("a".toList, some ⟨[⟨"T".toList,
            [[Cell.plain (CellVal.vint 7) false defaultStyle]],
            [⟨1, 1, 2, 2⟩], [], []⟩]⟩)]
        "e".toList ["a".toList] "p".toList none).written =
        some (outputPathOf "e".toList "p".toList, ⟨[sh]⟩) ∧
      (∀ r c, valueAt sh r c =
        valueAt ⟨"T".toList, [[Cell.plain (CellVal.vint 7) false defaultStyle]],
          [⟨1, 1, 2, 2⟩], [], []⟩ r c) ∧
      sh.merged = [⟨1, 1, 2, 2⟩] :=
  c1_single_source_round_trip
    [("a".toList, some ⟨[⟨"T".toList,
        [[Cell.plain (CellVal.vint 7) false defaultStyle]],
        [⟨1, 1, 2, 2⟩], [], []⟩]⟩)]
    "e".toList "a".toList "p".toList
    ⟨"T".toList, [[Cell.plain (CellVal.vint 7) false defaultStyle]],
      [⟨1, 1, 2, 2⟩], [], []⟩ (by decide)

/-- C2 (amended): sheet names are computed as the claim describes (candidate
from prefix or truncated base filename, sanitized, then collision-resolved to
the first free suffixed name), and every persisted output has pairwise
distinct sheet names; the 31-character bound holds whenever the sources carry
fewer than `10^29` sheets in total (it can only fail once a collision counter
reaches `10^30`, where Python's negative slice makes the name longer than 31
characters). -/
theorem c2_amended_naming (fs : Fs) (dir : Str) (ps : List Str) (out : Str)
    (sn : Option (List Str)) (p : Str) (wb : Workbook)
    (h : (consolidate_excel_files fs dir ps out sn).written = some (p, wb)) :
    ((∀ (existing : List Str) (name : Str),
      (name ∉ existing → _make_unique_sheet_name existing name = name) ∧
      (name ∈ existing → ∃ c, 1 ≤ c ∧
        _make_unique_sheet_name existing name = mkCand name c ∧
        mkCand name c ∉ existing ∧ ∀ j, 1 ≤ j → j < c → mkCand name j ∈ existing))) ∧
    (titlesOf wb.sheets).Nodup ∧
    (totalSheets fs ps + 1 ≤ 10 ^ 29 → ∀ t ∈ titlesOf wb.sheets, t.length ≤ 31) := by
  rcases consolidate_written_inv fs dir ps out sn p wb h with
    ⟨st, hpf, hne, hfm, hp, hwb, hsc, hres⟩
  have hsubl : (titlesOf wb.sheets).Sublist (titlesOf st.outSheets) := by
    rw [hwb]
    exact (finalOf_sublist st).map Sheet.title
  refine ⟨?_, ?_, ?_⟩
  · intro existing name
    constructor
    · intro hnm
      unfold _make_unique_sheet_name
      rw [if_neg hnm]
    · intro hnm
      exact make_unique_first_free existing name hnm
  · have hnodup : (titlesOf st.outSheets).Nodup := by
      have hn := processFiles_nodup fs sn ps 0 consInit (by decide)
      rw [hpf] at hn
      exact hn
    exact hnodup.sublist hsubl
  · intro hbound t ht
    have hall : ∀ t2 ∈ titlesOf st.outSheets, t2.length ≤ 31 := by
      have := processFiles_titles_le31 fs sn ps 0 consInit
        (by
          intro t2 ht2
          have : t2 = "Sheet".toList := by
            simpa [consInit, titlesOf, placeholderSheet] using ht2
          rw [this]
          decide)
        (by
          show consInit.outSheets.length + totalSheets fs ps ≤ 10 ^ 29
          have : consInit.outSheets.length = 1 := rfl
          omega)
      intro t2 ht2
      exact this t2 (by rw [hpf]; exact ht2)
    exact hall t (hsubl.mem ht)

/-- C2 (amended, witness): a concrete job has pairwise distinct, bounded
sheet names. -/
theorem c2_witness :
    (titlesOf (Workbook.mk [⟨"a_T".toList, [], [], [], []⟩]).sheets).Nodup :=
  (c2_amended_naming [("a".toList, some ⟨[⟨"T".toList, [], [], [], []⟩]⟩)] "e".toList
      ["a".toList] "p".toList none (outputPathOf "e".toList "p".toList)
      ⟨[⟨"a_T".toList, [], [], [], []⟩]⟩ rfl).2.1

/-- C2 (counterexample): the claimed universal 31-character bound fails.
With `10^30 + 1` identically-titled sheets in one source, some collision
counter reaches `10^30`; its suffix alone has 32 characters, and Python's
negative slice `name[:31 - len(suffix)]` then yields a sheet name longer
than 31 characters in the persisted output. -/
theorem c2_counterexample :
    ∃ wb t, (consolidate_excel_files
        [("f".toList, some ⟨List.replicate (10 ^ 30 + 1)
            (⟨List.replicate 40 'a', [], [], [], []⟩ : Sheet)⟩)]
        "d".toList ["f".toList] "o".toList none).written =
        some (outputPathOf "d".toList "o".toList, wb) ∧
      t ∈ titlesOf wb.sheets ∧ 31 < t.length := by
  set M : Nat := 10 ^ 30 with hM
  have hM0 : 0 < M := by rw [hM]; positivity
  set srcSheet : Sheet := ⟨List.replicate 40 'a', [], [], [], []⟩ with hsrc
  set wbBig : Workbook := ⟨List.replicate (M + 1) srcSheet⟩ with hwbBig
  set pa : Str := "f".toList with hpa
  set fs0 : Fs := [(pa, some wbBig)] with hfs0
  have hlook : lookupFs fs0 pa = some (some wbBig) := by
    rw [hfs0]
    simp [lookupFs]
  have hparse : ∀ q ∈ [pa], ∃ wb, lookupFs fs0 q = some (some wb) := by
    intro q hq
    rw [List.mem_singleton] at hq
    subst hq
    exact ⟨wbBig, hlook⟩
  have hfm : firstMissing fs0 [pa] = none := by
    apply firstMissing_none
    intro q hq
    rw [List.mem_singleton] at hq
    subst hq
    rw [hlook]
    simp
  rcases hpf : processFiles fs0 none 0 [pa] consInit with ⟨st, oe⟩
  have hoe : oe = none := by
    have h2 := processFiles_ok_of_all_parse fs0 none [pa] 0 consInit hparse
    rw [hpf] at h2
    exact h2
  subst hoe
  have hcons := consolidate_eq_ok fs0 "d".toList [pa] "o".toList none st (by simp) hfm hpf
  rcases processFiles_init_shape fs0 none [pa] with ⟨added, hsh0⟩
  rw [hpf] at hsh0
  have hsh : st.outSheets = placeholderSheet :: added := hsh0
  have hsi : st.sheetIndex = M + 1 := by
    have h2 := processFiles_sheetIndex fs0 none [pa] 0 consInit hparse
    rw [hpf] at h2
    have h3 : st.sheetIndex = consInit.sheetIndex + totalSheets fs0 [pa] := h2
    rw [h3, totalSheets_cons_parse fs0 pa [] wbBig hlook]
    have e1 : consInit.sheetIndex = 0 := rfl
    have e2 : wbBig.sheets.length = M + 1 := by
      show (List.replicate (M + 1) srcSheet).length = M + 1
      exact List.length_replicate _ _
    have e3 : totalSheets fs0 ([] : List Str) = 0 := rfl
    rw [e1, e2, e3]
    omega
  have hlen : st.outSheets.length = st.sheetIndex + 1 := by
    have h2 := processFiles_len_inv fs0 none [pa] 0 consInit rfl
    rw [hpf] at h2
    exact h2
  have haddedlen : added.length = M + 1 := by
    rw [hsh] at hlen
    simp only [List.length_cons] at hlen
    omega
  have hnodup : (titlesOf st.outSheets).Nodup := by
    have hn := processFiles_nodup fs0 none [pa] 0 consInit (by decide)
    rw [hpf] at hn
    exact hn
  have hndadded : (titlesOf added).Nodup ∧ "Sheet".toList ∉ titlesOf added := by
    rw [hsh] at hnodup
    have heq : titlesOf (placeholderSheet :: added) = "Sheet".toList :: titlesOf added := rfl
    rw [heq] at hnodup
    exact ⟨(List.nodup_cons.mp hnodup).2, (List.nodup_cons.mp hnodup).1⟩
  have hfinal : finalOf st = added := by
    unfold finalOf
    rw [if_pos ⟨by omega, by rw [hsh]; rfl⟩, hsh]
    rfl
  set n1 : Str := _sanitize_sheet_name (defaultCandidate pa srcSheet.title) with hn1
  have hshape_t : ∀ t ∈ titlesOf added, t = n1 ∨ ∃ c, 1 ≤ c ∧ t = mkCand n1 c := by
    intro t ht
    have htf : t ∈ titlesOf st.outSheets := by
      rw [hsh]
      have heq : titlesOf (placeholderSheet :: added) = "Sheet".toList :: titlesOf added := rfl
      rw [heq]
      exact List.mem_cons_of_mem _ ht
    have h2 := processFiles_title_shape fs0 none [pa] 0 consInit t (by rw [hpf]; exact htf)
    rcases h2 with h0 | ⟨j, q, wb2, s, hq, hlq, hs, hsh2⟩
    · exfalso
      have ht2 : t = "Sheet".toList := by
        simpa [consInit, titlesOf, placeholderSheet] using h0
      rw [ht2] at ht
      exact hndadded.2 ht
    · rw [List.mem_singleton] at hq
      subst hq
      rw [hlook] at hlq
      have hwb2 : wb2 = wbBig := by
        injection hlq with h3
        injection h3 with h4
        exact h4.symm
      subst hwb2
      have hseq : s = srcSheet := by
        have hs2 : s ∈ List.replicate (M + 1) srcSheet := hs
        exact List.eq_of_mem_replicate hs2
      subst hseq
      have hta : targetNameFor none j pa wbBig.sheets.length srcSheet.title =
          defaultCandidate pa srcSheet.title := rfl
      rw [hta, ← hn1] at hsh2
      exact hsh2
  refine ⟨⟨added⟩, ?_⟩
  have hwrit : (consolidate_excel_files fs0 "d".toList [pa] "o".toList none).written =
      some (outputPathOf "d".toList "o".toList, (⟨added⟩ : Workbook)) := by
    rw [hcons]
    show some (outputPathOf "d".toList "o".toList, (⟨finalOf st⟩ : Workbook)) = _
    rw [hfinal]
  have hmain : ∃ t ∈ titlesOf added, 31 < t.length := by
    by_contra hcon
    push_neg at hcon
    set S : List Str := n1 :: (List.range' 1 (M - 1)).map (mkCand n1) with hS
    have hsub : ∀ t ∈ titlesOf added, t ∈ S := by
      intro t ht
      rcases hshape_t t ht with h1 | ⟨c, hc1, hc2⟩
      · rw [hS, h1]
        exact List.mem_cons_self _ _
      · have hlen31 := hcon t ht
        have hclt : c < M := by
          by_contra hge
          push_neg at hge
          have hgt := mkCand_length_gt n1 c (by rw [← hM]; exact hge)
          rw [← hc2] at hgt
          omega
        rw [hS, hc2]
        refine List.mem_cons_of_mem _ (List.mem_map.mpr ⟨c, ?_, rfl⟩)
        rw [List.mem_range'_1]
        omega
    have hndT := hndadded.1
    have hlenT : (titlesOf added).length = M + 1 := by
      rw [titlesOf, List.length_map, haddedlen]
    have h1 : (titlesOf added).toFinset.card = M + 1 := by
      rw [List.toFinset_card_of_nodup hndT, hlenT]
    have h2 : (titlesOf added).toFinset ⊆ S.toFinset := by
      intro x hx
      rw [List.mem_toFinset] at hx ⊢
      exact hsub x hx
    have h3 := Finset.card_le_card h2
    have h4 := List.toFinset_card_le (l := S)
    have h5 : S.length = 1 + (M - 1) := by
      rw [hS]
      simp only [List.length_cons, List.length_map, List.length_range']
      omega
    omega
  rcases hmain with ⟨t, ht, htlen⟩
  exact ⟨t, hwrit, ht, htlen⟩

end FileManager
